import Mathlib

/-!
Verification model of the mandelox escape-time engine.

The Rust sources are shallowly embedded: `f64` arithmetic is modelled as
exact rational arithmetic (`ℚ`), machine integers as `ℕ`/`ℤ` with the
explicit casts the source performs, vectors as `List`, and panicking
operations as `Option`-returning functions (`none` = panic/assert failure).
-/

/-- Complex numbers with rational components, modelling
`num::complex::Complex<f64>` (`src/complex.rs`, `pub type C<T> = Complex<T>`). -/
structure Cplx where
  re : ℚ
  im : ℚ
deriving DecidableEq, Repr

instance : Add Cplx := ⟨fun a b => ⟨a.re + b.re, a.im + b.im⟩⟩

instance : Mul Cplx := ⟨fun a b => ⟨a.re * b.re - a.im * b.im, a.re * b.im + a.im * b.re⟩⟩

/-- `c(re, im)` of `src/complex.rs`. -/
def cplx (re im : ℚ) : Cplx := ⟨re, im⟩

/-- `cr(re)` of `src/complex.rs`: a real as a complex number. -/
def cr (re : ℚ) : Cplx := ⟨re, 0⟩

theorem Cplx.add_def (a b : Cplx) : a + b = ⟨a.re + b.re, a.im + b.im⟩ := rfl

theorem Cplx.mul_def (a b : Cplx) :
    a * b = ⟨a.re * b.re - a.im * b.im, a.re * b.im + a.im * b.re⟩ := rfl

/-- Squared modulus of a complex number. -/
def Cplx.normSq (a : Cplx) : ℚ := a.re * a.re + a.im * a.im

/-- Model of the comparison `z.norm() > treshold` used by every solver backend.
`norm()` is the real square root of `normSq`; for a real threshold `t` the
comparison `Real.sqrt s > t` is equivalent to `t < 0 ∨ t * t < s`, which is the
form used here so that the test stays decidable over `ℚ`. -/
def normGt (z : Cplx) (t : ℚ) : Bool := decide (t < 0 ∨ t * t < z.normSq)

/-- One step of the escape-time recurrence `z ← z² + c`. -/
def mbStep (c z : Cplx) : Cplx := z * z + c

/-- The orbit of the recurrence: `zseq c z0 0 = z0`, `zseq c z0 (k+1) = (zseq c z0 k)² + c`.
Every backend starts a fresh cell with `z0 = c`. -/
def zseq (c z0 : Cplx) : ℕ → Cplx
  | 0 => z0
  | k + 1 => mbStep c (zseq c z0 k)

/-- Helper for `firstEscape`: scans steps `k, k+1, ...` (at most `fuel` of them),
where `z` is the orbit value before step `k`, returning the first step number
whose orbit value exceeds the threshold. -/
def firstEscapeGo (c : Cplx) (t : ℚ) : Cplx → ℕ → ℕ → Option ℕ
  | _, _, 0 => none
  | z, k, fuel + 1 =>
    let z' := mbStep c z
    if normGt z' t then some k else firstEscapeGo c t z' (k + 1) fuel

/-- The 1-based number of the first recurrence step (among steps `1..n`) at which
the orbit of `c` started at `z0` exceeds the threshold `t`, if any. -/
def firstEscape (c z0 : Cplx) (t : ℚ) (n : ℕ) : Option ℕ := firstEscapeGo c t z0 1 n

/-- Rust `u16 as i16` cast: reinterpret the 16-bit pattern as a signed value. -/
def u16AsI16 (k : ℕ) : ℤ :=
  if k % 65536 < 32768 then ((k % 65536 : ℕ) : ℤ) else (k % 65536 : ℤ) - 65536

/-- `MbVecCell` (`src/solver/vec.rs`): per-cell record with source coordinate `c`,
current iterate `z` and escape iteration `i` (`i16`, `-1` = not escaped). -/
structure MbVecCell where
  c : Cplx
  z : Cplx
  i : ℤ
deriving DecidableEq, Repr

/-- `MbVecState` (`src/solver/vec.rs`): scalar escape state, cells in row-major order. -/
structure MbVecState where
  width : ℕ
  height : ℕ
  iteration : ℤ
  state : List MbVecCell
deriving DecidableEq, Repr

/-- `MbVecState::i_value` (`src/solver/vec.rs`): `self.state[y * self.width + x].i`;
`none` models the out-of-bounds indexing panic. -/
def MbVecState.i_value (s : MbVecState) (x y : ℕ) : Option ℤ :=
  (s.state.get? (y * s.width + x)).map MbVecCell.i

/-- Body of the inner loop of `MbVecSolver::solve` (`src/solver/vec.rs` lines
129-137) at loop index `iteration`: if the cell has not escaped, update `z` and,
when the new `z` exceeds the threshold, record `iteration as i16`. -/
def solveCellStep (treshold : ℚ) (iteration : ℕ) (cell : MbVecCell) : MbVecCell :=
  if cell.i = -1 then
    let z := cell.z * cell.z + cell.c
    { cell with z := z, i := if normGt z treshold then u16AsI16 iteration else cell.i }
  else cell

/-- `MbVecSolver` (`src/solver/vec.rs`): `iterations: u16` and `treshold: f64`. -/
structure MbVecSolver where
  iterations : ℕ
  treshold : ℚ

/-- `MbVecSolver::default()`: 100 iterations, threshold 2.0. -/
def MbVecSolver.default : MbVecSolver := ⟨100, 2⟩

/-- `MbVecSolver::solve` (`src/solver/vec.rs` lines 124-142): for each loop index
`0..iterations`, apply the per-cell update to every cell; finally set the state's
`iteration` counter to `self.iterations as i16`. -/
def MbVecSolver.solve (s : MbVecSolver) (st : MbVecState) : MbVecState :=
  { st with
    state := (List.range s.iterations).foldl
      (fun cells iteration => cells.map (solveCellStep s.treshold iteration)) st.state
    iteration := u16AsI16 s.iterations }

/-- A fresh scalar state over a row-major coordinate grid, as built by
`From<Viewbox> for MbVecState` (`src/solver/vec.rs` lines 35-49) from the
materialized coordinates: each cell starts with `z = c`, `i = -1`;
`iteration = 0`. -/
def mbVecStateOfGrid (width height : ℕ) (cs : List Cplx) : MbVecState :=
  { width := width, height := height, iteration := 0
    state := cs.map (fun c => { c := c, z := c, i := -1 }) }

theorem u16AsI16_of_lt {k : ℕ} (h : k < 32768) : u16AsI16 k = (k : ℤ) := by
  unfold u16AsI16
  rw [Nat.mod_eq_of_lt (lt_trans h (by norm_num))]
  simp [h]

theorem u16AsI16_ne_neg_one {k : ℕ} (h : k ≤ 65534) : u16AsI16 k ≠ -1 := by
  unfold u16AsI16
  rw [Nat.mod_eq_of_lt (lt_of_le_of_lt h (by norm_num))]
  split
  · omega
  · omega

theorem solveCellStep_escaped {t : ℚ} {k : ℕ} {cell : MbVecCell} (h : cell.i ≠ -1) :
    solveCellStep t k cell = cell := by
  unfold solveCellStep
  simp [h]

theorem foldl_solveCellStep_escaped {t : ℚ} {cell : MbVecCell} (l : List ℕ)
    (h : cell.i ≠ -1) :
    l.foldl (fun c k => solveCellStep t k c) cell = cell := by
  induction l with
  | nil => rfl
  | cons a l ih => simpa [solveCellStep_escaped h] using ih

theorem foldl_map_comm {α β : Type} (f : β → α → α) (l : List β) (xs : List α) :
    l.foldl (fun acc k => acc.map (f k)) xs = xs.map (fun x => l.foldl (fun x k => f k x) x) := by
  induction l generalizing xs with
  | nil => simp
  | cons a l ih => simp [List.foldl_cons, ih, List.map_map, Function.comp_def]

/-- The result of the per-cell loop of `MbVecSolver::solve` on an unescaped cell
whose `z` is the orbit value after `j` steps, run over loop indices `j..j+m`:
the cell escapes at the loop index one less than the 1-based escape step, and
its `z` freezes at the escape step's orbit value. -/
theorem solveCell_range_eq (t : ℚ) (c z0 : Cplx) (m : ℕ) :
    ∀ j : ℕ, j + m ≤ 65535 →
    (List.range' j m).foldl (fun cell k => solveCellStep t k cell)
        { c := c, z := zseq c z0 j, i := -1 } =
      match firstEscapeGo c t (zseq c z0 j) (j + 1) m with
      | some k => { c := c, z := zseq c z0 k, i := u16AsI16 (k - 1) }
      | none => { c := c, z := zseq c z0 (j + m), i := -1 } := by
  induction m with
  | zero => intro j _; simp [firstEscapeGo]
  | succ m ih =>
    intro j hj
    rw [List.range'_succ, List.foldl_cons]
    have hstep : solveCellStep t j { c := c, z := zseq c z0 j, i := -1 } =
        { c := c, z := zseq c z0 (j + 1),
          i := if normGt (zseq c z0 (j + 1)) t then u16AsI16 j else -1 } := by
      unfold solveCellStep
      simp only [if_pos rfl]
      rfl
    rw [hstep]
    unfold firstEscapeGo
    simp only [show mbStep c (zseq c z0 j) = zseq c z0 (j + 1) from rfl]
    by_cases hesc : normGt (zseq c z0 (j + 1)) t
    · rw [if_pos hesc, if_pos hesc]
      rw [foldl_solveCellStep_escaped _ (u16AsI16_ne_neg_one (by omega))]
      simp
    · rw [if_neg hesc, if_neg hesc]
      have := ih (j + 1) (by omega)
      rw [this]
      have : j + 1 + m = j + (m + 1) := by omega
      rw [this]

/-- `MbVecSolver.solve` acts cell-wise; each cell of the result is the per-cell
loop applied to it. -/
theorem MbVecSolver.solve_state (s : MbVecSolver) (st : MbVecState) :
    (s.solve st).state =
      st.state.map (fun cell =>
        (List.range s.iterations).foldl (fun c k => solveCellStep s.treshold k c) cell) := by
  unfold MbVecSolver.solve
  exact foldl_map_comm _ _ _

/-- What a single `solve` call does to a fresh cell: via `firstEscape`. -/
theorem solveCell_fresh (t : ℚ) (c : Cplx) (n : ℕ) (hn : n ≤ 65535) :
    (List.range n).foldl (fun cell k => solveCellStep t k cell) { c := c, z := c, i := -1 } =
      match firstEscape c c t n with
      | some k => { c := c, z := zseq c c k, i := u16AsI16 (k - 1) }
      | none => { c := c, z := zseq c c n, i := -1 } := by
  have h0 : (List.range n) = List.range' 0 n := by
    simp [List.range_eq_range']
  rw [h0]
  have := solveCell_range_eq t c c n 0 (by omega)
  simpa [firstEscape, zseq] using this

/-- `MbArrayState` (`src/solver/array.rs` lines 37-45): dense backend state with
three separate same-shaped arrays; the `Array2`s (row-major in ndarray) are
modelled as row-major flat lists of length `width * height`. -/
structure MbArrayState where
  width : ℕ
  height : ℕ
  iteration : ℤ
  ca : List Cplx
  za : List Cplx
  ia : List ℤ
deriving DecidableEq, Repr

/-- `MbArrayState::i_value`: `self.ia[[y, x]]` in a row-major array. -/
def MbArrayState.i_value (s : MbArrayState) (x y : ℕ) : Option ℤ :=
  s.ia.get? (y * s.width + x)

/-- `MbArraySolver` (`src/solver/array.rs`). -/
structure MbArraySolver where
  iterations : ℕ
  treshold : ℚ

/-- `MbArraySolver::iterate` (`src/solver/array.rs` lines 152-179): elementwise
over the three arrays, `nzv = zv² + cv` unconditionally, and
`niv = if iv == -1 && |nzv| > treshold then state.iteration + 1 else iv`;
the returned state's `iteration` is `state.iteration + 1` and `ca` is shared.
The ndarray `Zip` panics on shape mismatch; the model's `zipWith` is used under
the length invariants of a well-formed state. -/
def MbArraySolver.iterate (s : MbArraySolver) (st : MbArrayState) : MbArrayState :=
  { st with
    iteration := st.iteration + 1
    za := List.zipWith (fun zv cv => zv * zv + cv) st.za st.ca
    ia := List.zipWith3 (fun iv zv cv =>
      if iv = -1 ∧ normGt (zv * zv + cv) s.treshold then st.iteration + 1 else iv)
      st.ia st.za st.ca }

/-- `MbArraySolver::solve` (`src/solver/array.rs` lines 187-194): apply `iterate`
`self.iterations` times. -/
def MbArraySolver.solve (s : MbArraySolver) (st : MbArrayState) : MbArrayState :=
  (MbArraySolver.iterate s)^[s.iterations] st

/-- A fresh dense state over a row-major coordinate grid, as built by
`MbArrayState::initialize` (`src/solver/array.rs` lines 57-69) once the grid is
materialized: `za` is a clone of `ca` and `ia` is filled with `-1`. -/
def mbArrayStateOfGrid (width height : ℕ) (cs : List Cplx) : MbArrayState :=
  { width := width, height := height, iteration := 0
    ca := cs, za := cs, ia := List.replicate (height * width) (-1) }

theorem firstEscapeGo_some_bounds {c : Cplx} {t : ℚ} :
    ∀ {fuel : ℕ} {z : Cplx} {j k : ℕ}, firstEscapeGo c t z j fuel = some k →
      j ≤ k ∧ k < j + fuel := by
  intro fuel
  induction fuel with
  | zero => intro z j k h; simp [firstEscapeGo] at h
  | succ fuel ih =>
    intro z j k h
    unfold firstEscapeGo at h
    by_cases hd : normGt (mbStep c z) t
    · rw [if_pos hd] at h
      cases h
      omega
    · rw [if_neg hd] at h
      have := ih h
      omega

theorem firstEscape_some_bounds {c z0 : Cplx} {t : ℚ} {n k : ℕ}
    (h : firstEscape c z0 t n = some k) : 1 ≤ k ∧ k ≤ n := by
  have := firstEscapeGo_some_bounds h
  omega

/-- Peeling the last step off the scan: `firstEscapeGo` over `fuel + 1` steps
first looks among the first `fuel` steps and otherwise tests the last one. -/
theorem firstEscapeGo_snoc (c : Cplx) (t : ℚ) (z0 : Cplx) (fuel : ℕ) :
    ∀ j : ℕ, firstEscapeGo c t (zseq c z0 j) (j + 1) (fuel + 1) =
      match firstEscapeGo c t (zseq c z0 j) (j + 1) fuel with
      | some k => some k
      | none =>
        if normGt (zseq c z0 (j + fuel + 1)) t then some (j + fuel + 1) else none := by
  induction fuel with
  | zero =>
    intro j
    unfold firstEscapeGo
    simp only [show mbStep c (zseq c z0 j) = zseq c z0 (j + 1) from rfl]
    unfold firstEscapeGo
    by_cases hd : normGt (zseq c z0 (j + 1)) t
    · simp [hd]
    · simp [hd]
  | succ fuel ih =>
    intro j
    conv_lhs => unfold firstEscapeGo
    conv_rhs => unfold firstEscapeGo
    simp only [show mbStep c (zseq c z0 j) = zseq c z0 (j + 1) from rfl]
    by_cases hd : normGt (zseq c z0 (j + 1)) t
    · simp [hd]
    · simp only [if_neg hd]
      have := ih (j + 1)
      rw [show j + 1 + fuel + 1 = j + (fuel + 1) + 1 by omega] at this
      exact this

/-- Peeling the last step off `firstEscape`. -/
theorem firstEscape_succ (c z0 : Cplx) (t : ℚ) (n : ℕ) :
    firstEscape c z0 t (n + 1) =
      match firstEscape c z0 t n with
      | some k => some k
      | none => if normGt (zseq c z0 (n + 1)) t then some (n + 1) else none := by
  have := firstEscapeGo_snoc c t z0 n 0
  simpa [firstEscape, zseq] using this

/-- The escape value a backend using 1-based cumulative numbering stores for a
fresh cell of coordinate `c` after `n` steps (`-1` when the cell never escapes). -/
def firstEscapeI (c : Cplx) (t : ℚ) (n : ℕ) : ℤ :=
  match firstEscape c c t n with
  | some k => (k : ℤ)
  | none => -1

theorem zipWith_map_self {α β γ : Type} (f : β → α → γ) (g : α → β) (l : List α) :
    List.zipWith f (l.map g) l = l.map (fun x => f (g x) x) := by
  induction l with
  | nil => rfl
  | cons a l ih => simp [ih]

theorem zipWith3_map_self {α β γ δ : Type} (f : β → γ → α → δ) (g1 : α → β) (g2 : α → γ)
    (l : List α) :
    List.zipWith3 f (l.map g1) (l.map g2) l = l.map (fun x => f (g1 x) (g2 x) x) := by
  induction l with
  | nil => rfl
  | cons a l ih => simp [List.zipWith3, ih]

/-- Evolution of the dense backend on a fresh state: after `m` applications of
`iterate`, `ca` is untouched, `za` holds the orbit value after `m` steps for
every cell, `ia` holds the 1-based first escape step (or `-1`), and the state's
`iteration` counter is `m`. -/
theorem mbArray_iterate_fresh (t : ℚ) (w h : ℕ) (cs : List Cplx)
    (hlen : cs.length = h * w) (n : ℕ) (m : ℕ) :
    (MbArraySolver.iterate ⟨n, t⟩)^[m] (mbArrayStateOfGrid w h cs) =
      { width := w, height := h, iteration := (m : ℤ)
        ca := cs
        za := cs.map (fun c => zseq c c m)
        ia := cs.map (fun c => firstEscapeI c t m) } := by
  induction m with
  | zero =>
    simp only [Function.iterate_zero, id_eq, mbArrayStateOfGrid]
    congr 1
    · simp [zseq]
    · rw [← hlen, ← List.map_const']
      simp [firstEscapeI, firstEscape, firstEscapeGo]
  | succ m ih =>
    rw [Function.iterate_succ_apply', ih]
    unfold MbArraySolver.iterate
    dsimp only
    rw [zipWith_map_self, zipWith3_map_self]
    have hza : ∀ c : Cplx, zseq c c m * zseq c c m + c = zseq c c (m + 1) := fun _ => rfl
    have hia : ∀ c : Cplx,
        (if firstEscapeI c t m = -1 ∧ normGt (zseq c c m * zseq c c m + c) t = true
          then (m : ℤ) + 1 else firstEscapeI c t m) = firstEscapeI c t (m + 1) := by
      intro c
      rw [hza c]
      unfold firstEscapeI
      rw [firstEscape_succ]
      rcases hk : firstEscape c c t m with _ | k
      · by_cases hd : normGt (zseq c c (m + 1)) t
        · simp [hd]
        · simp [hd]
      · have hk1 : 1 ≤ k := (firstEscape_some_bounds hk).1
        have : ((k : ℤ)) ≠ -1 := by omega
        simp [this]
    rw [List.map_congr_left (fun c (_ : c ∈ cs) => hza c),
      List.map_congr_left (fun c (_ : c ∈ cs) => hia c)]
    norm_cast

/-- `i_value` after one scalar `solve` call on a fresh grid state: the scalar
backend stores `(k - 1) as i16` where `k` is the 1-based first escape step. -/
theorem mbVec_solve_fresh_i_value (n : ℕ) (hn : n ≤ 65535) (t : ℚ) (w h x y : ℕ)
    (cs : List Cplx) :
    (MbVecSolver.solve ⟨n, t⟩ (mbVecStateOfGrid w h cs)).i_value x y =
      (cs.get? (y * w + x)).map (fun c =>
        match firstEscape c c t n with
        | some k => u16AsI16 (k - 1)
        | none => -1) := by
  unfold MbVecState.i_value
  have hw : (MbVecSolver.solve ⟨n, t⟩ (mbVecStateOfGrid w h cs)).width = w := rfl
  rw [hw, MbVecSolver.solve_state]
  simp only [mbVecStateOfGrid, List.map_map, List.get?_map, Function.comp_def]
  rcases hc : cs.get? (y * w + x) with _ | c
  · rfl
  · simp only [Option.map_some']
    rw [solveCell_fresh t c n hn]
    rcases firstEscape c c t n with _ | k
    · rfl
    · rfl

/-- A scan that escapes at the very first step. -/
theorem firstEscape_one {c z0 : Cplx} {t : ℚ} (h : normGt (mbStep c z0) t = true)
    {n : ℕ} (hn : 1 ≤ n) : firstEscape c z0 t n = some 1 := by
  obtain ⟨m, rfl⟩ : ∃ m, n = m + 1 := ⟨n - 1, by omega⟩
  unfold firstEscape firstEscapeGo
  simp [h]

/-- The all-zero cell is a fixed point of the scalar per-cell update. -/
theorem solveCellStep_zero (t2 : ℚ) (k : ℕ) (h : normGt (cplx 0 0) t2 = false) :
    solveCellStep t2 k ⟨cplx 0 0, cplx 0 0, -1⟩ = ⟨cplx 0 0, cplx 0 0, -1⟩ := by
  unfold solveCellStep
  simp only [if_pos rfl]
  have hz : cplx 0 0 * cplx 0 0 + cplx 0 0 = cplx 0 0 := by
    norm_num [cplx, Cplx.mul_def, Cplx.add_def]
  rw [hz, h]
  simp

theorem foldl_fixed {α β : Type} (f : β → α → α) (x : α) (hf : ∀ k, f k x = x) :
    ∀ l : List β, l.foldl (fun x k => f k x) x = x := by
  intro l
  induction l with
  | nil => rfl
  | cons a l ih => simpa [hf a] using ih

theorem normGt_zero_two : normGt (cplx 0 0) 2 = false := by
  norm_num [normGt, Cplx.normSq, cplx]

/-- C9: for the cell `c = 0+0i` with threshold 2.0, the scalar solver never sets
the escape iteration: after any number `m` of `solve` calls with any iteration
budget `n`, `i_value` at that cell is still the unset sentinel `-1`. -/
theorem C9_zero_never_escapes (n w h x y m : ℕ) (cs : List Cplx)
    (hc : cs.get? (y * w + x) = some (cplx 0 0)) :
    ((MbVecSolver.solve ⟨n, 2⟩)^[m] (mbVecStateOfGrid w h cs)).i_value x y = some (-1) := by
  have hstep : ∀ k, solveCellStep 2 k ⟨cplx 0 0, cplx 0 0, -1⟩ = ⟨cplx 0 0, cplx 0 0, -1⟩ :=
    fun k => solveCellStep_zero 2 k normGt_zero_two
  have hwidth : ∀ st : MbVecState, ((MbVecSolver.solve ⟨n, 2⟩)^[m] st).width = st.width := by
    intro st
    induction m with
    | zero => rfl
    | succ m ih => rw [Function.iterate_succ_apply']; exact ih
  -- invariant: the cell at the inspected index stays the all-zero unescaped cell
  have inv : ∀ st : MbVecState, st.state.get? (y * w + x) = some ⟨cplx 0 0, cplx 0 0, -1⟩ →
      ((MbVecSolver.solve ⟨n, 2⟩) st).state.get? (y * w + x) =
        some ⟨cplx 0 0, cplx 0 0, -1⟩ := by
    intro st hst
    rw [MbVecSolver.solve_state]
    rw [List.get?_map, hst]
    simp only [Option.map_some']
    rw [foldl_fixed _ _ hstep]
  have main : ∀ st : MbVecState, st.state.get? (y * w + x) = some ⟨cplx 0 0, cplx 0 0, -1⟩ →
      ((MbVecSolver.solve ⟨n, 2⟩)^[m] st).state.get? (y * w + x) =
        some ⟨cplx 0 0, cplx 0 0, -1⟩ := by
    clear hwidth hc
    induction m with
    | zero => exact fun st h => h
    | succ m ih =>
      intro st h
      rw [Function.iterate_succ_apply']
      exact inv _ (ih st h)
  have h0 : (mbVecStateOfGrid w h cs).state.get? (y * w + x) =
      some ⟨cplx 0 0, cplx 0 0, -1⟩ := by
    unfold mbVecStateOfGrid
    rw [List.get?_map, hc]
    rfl
  unfold MbVecState.i_value
  rw [hwidth (mbVecStateOfGrid w h cs)]
  rw [show (mbVecStateOfGrid w h cs).width = w from rfl]
  rw [main _ h0]
  rfl

/-- C9 witness: a concrete instance of `C9_zero_never_escapes`
(1×1 grid at the origin, budget 2, two solve calls). -/
theorem C9_zero_never_escapes_witness :
    ((MbVecSolver.solve ⟨2, 2⟩)^[2] (mbVecStateOfGrid 1 1 [cplx 0 0])).i_value 0 0 =
      some (-1) :=
  C9_zero_never_escapes 2 1 1 0 0 2 [cplx 0 0] rfl

theorem normGt_six_two : normGt (cplx 6 0) 2 = true := by
  norm_num [normGt, Cplx.normSq, cplx]

theorem mbStep_two : mbStep (cplx 2 0) (cplx 2 0) = cplx 6 0 := by
  norm_num [mbStep, cplx, Cplx.mul_def, Cplx.add_def]

/-- C3 counterexample: for `c = 2+0i` with threshold 2.0 and iteration budget 1,
one scalar `solve` call yields `i_value = 0`, not the 1-based value 1 the claim
states. -/
theorem C3_counterexample :
    (MbVecSolver.solve ⟨1, 2⟩ (mbVecStateOfGrid 1 1 [cplx 2 0])).i_value 0 0 = some 0 ∧
    (some (0 : ℤ) : Option ℤ) ≠ some 1 := by
  constructor
  · rw [mbVec_solve_fresh_i_value 1 (by norm_num) 2 1 1 0 0 [cplx 2 0]]
    rw [show ([cplx 2 0].get? (0 * 1 + 0)) = some (cplx 2 0) from rfl]
    rw [Option.map_some']
    rw [firstEscape_one (mbStep_two ▸ normGt_six_two) (le_refl 1)]
    rfl
  · simp

/-- C3 (amended): during one `solve` call on a fresh state the scalar backend
records the 0-based loop index of the step at which `z` first exceeded the
threshold (one less than the 1-based step number) and freezes the cell, while
the dense backend records the 1-based step number.  In particular, for the cell
`c = 2+0i` with threshold 2.0 and any positive iteration budget, the scalar
backend leaves the cell frozen at `z = 6+0i` with `i_value = 0`, and the dense
backend yields `i_value = 1`. -/
theorem C3_escape_indexing (n : ℕ) (h1 : 1 ≤ n) (h2 : n ≤ 65535) :
    (MbVecSolver.solve ⟨n, 2⟩ (mbVecStateOfGrid 1 1 [cplx 2 0])).state =
      [{ c := cplx 2 0, z := cplx 6 0, i := 0 }] ∧
    (MbVecSolver.solve ⟨n, 2⟩ (mbVecStateOfGrid 1 1 [cplx 2 0])).i_value 0 0 = some 0 ∧
    (MbArraySolver.solve ⟨n, 2⟩ (mbArrayStateOfGrid 1 1 [cplx 2 0])).i_value 0 0 = some 1 := by
  have hfe : firstEscape (cplx 2 0) (cplx 2 0) 2 n = some 1 :=
    firstEscape_one (mbStep_two ▸ normGt_six_two) h1
  refine ⟨?_, ?_, ?_⟩
  · rw [MbVecSolver.solve_state]
    simp only [mbVecStateOfGrid, List.map_cons, List.map_nil]
    rw [solveCell_fresh 2 (cplx 2 0) n h2, hfe]
    dsimp only
    rw [show zseq (cplx 2 0) (cplx 2 0) 1 = cplx 6 0 from mbStep_two]
    norm_num [u16AsI16]
  · rw [mbVec_solve_fresh_i_value n h2 2 1 1 0 0 [cplx 2 0]]
    rw [show ([cplx 2 0].get? (0 * 1 + 0)) = some (cplx 2 0) from rfl, Option.map_some', hfe]
    dsimp only
    norm_num [u16AsI16]
  · unfold MbArraySolver.solve
    rw [mbArray_iterate_fresh 2 1 1 [cplx 2 0] rfl n n]
    unfold MbArrayState.i_value
    show [firstEscapeI (cplx 2 0) 2 n].get? (0 * 1 + 0) = some 1
    unfold firstEscapeI
    rw [hfe]
    rfl

/-- C3 witness: the amended statement at budget 1. -/
theorem C3_escape_indexing_witness :
    (MbVecSolver.solve ⟨1, 2⟩ (mbVecStateOfGrid 1 1 [cplx 2 0])).state =
      [{ c := cplx 2 0, z := cplx 6 0, i := 0 }] ∧
    (MbVecSolver.solve ⟨1, 2⟩ (mbVecStateOfGrid 1 1 [cplx 2 0])).i_value 0 0 = some 0 ∧
    (MbArraySolver.solve ⟨1, 2⟩ (mbArrayStateOfGrid 1 1 [cplx 2 0])).i_value 0 0 = some 1 :=
  C3_escape_indexing 1 (le_refl 1) (by norm_num)

/-- The range-emitting loop of `RangeSplitter` (`src/threads.rs` lines 60-100),
unrolled over the `n` calls to `next` that a `split(start, end, n)` iterator
answers: state is `(remaining parts, offset, length, size, plus_ones)`.
`none` models the `assert!(size <= self.length, "RangeSplitter bounds error")`
panic. -/
def rsGo : ℕ → ℕ → ℕ → ℕ → ℕ → Option (List (ℕ × ℕ))
  | 0, _, _, _, _ => some []
  | k + 1, offset, length, size, plusOnes =>
    let sz := if 0 < plusOnes then size + 1 else size
    if sz ≤ length then
      (rsGo k (offset + sz) (length - sz) size (plusOnes - 1)).map
        (fun rest => (offset, offset + sz) :: rest)
    else none

/-- `RangeSplitter::split(start, end, n)` (`src/threads.rs` lines 70-79) run to
completion.  `n = 0` models the division-by-zero panic in `(end - start) / n`. -/
def RangeSplitter.split (start stop n : ℕ) : Option (List (ℕ × ℕ)) :=
  if n = 0 then none
  else rsGo n start (stop - start) ((stop - start) / n) ((stop - start) % n)

/-- `impl<T> Split for Vec<T>` (`src/threads.rs` lines 102-111): slice out each
range produced by the splitter. -/
def listSplitToVec {α : Type} (l : List α) (n : ℕ) : Option (List (List α)) :=
  (RangeSplitter.split 0 l.length n).map
    (fun rs => rs.map (fun r => (l.drop r.1).take (r.2 - r.1)))

/-- `impl<T> Join for Vec<T>` (`src/threads.rs` lines 113-121): concatenation. -/
def listJoinVec {α : Type} (parts : List (List α)) : List α := parts.flatten

/-- `impl Split for MbVecState` (`src/solver/vec.rs` lines 63-81): split the
cell vector into `height` rows, group the rows into `n` parts, rebuild a state
per part (same `width` and `iteration`, `height` = number of rows in the part). -/
def MbVecState.split_to_vec (s : MbVecState) (n : ℕ) : Option (List MbVecState) :=
  (listSplitToVec s.state s.height).bind (fun rows =>
    (listSplitToVec rows n).map (fun rowGroups =>
      rowGroups.map (fun rowGroup =>
        { width := s.width, height := rowGroup.length
          state := listJoinVec rowGroup, iteration := s.iteration })))

/-- `impl Join for MbVecState` (`src/solver/vec.rs` lines 83-102): `none` models
the `parts[0]` panic on an empty vector and the `assert!`s that every part share
the first part's `width` and `iteration`; on success the heights are summed and
the cell vectors concatenated. -/
def MbVecState.join_vec : List MbVecState → Option MbVecState
  | [] => none
  | p :: ps =>
    if ∀ q ∈ p :: ps, q.width = p.width ∧ q.iteration = p.iteration then
      some { width := p.width, iteration := p.iteration
             height := ((p :: ps).map MbVecState.height).sum
             state := listJoinVec ((p :: ps).map MbVecState.state) }
    else none

/-- The per-part sizes `RangeSplitter` hands out: the first `plusOnes` parts get
`size + 1`, the rest `size`. -/
def sizesGo : ℕ → ℕ → ℕ → List ℕ
  | 0, _, _ => []
  | k + 1, size, plusOnes =>
    (if 0 < plusOnes then size + 1 else size) :: sizesGo k size (plusOnes - 1)

/-- The consecutive ranges starting at `offset` with the given sizes. -/
def rangesFrom : ℕ → List ℕ → List (ℕ × ℕ)
  | _, [] => []
  | offset, s :: ss => (offset, offset + s) :: rangesFrom (offset + s) ss

/-- Cutting a list into consecutive chunks of the given sizes. -/
def chunksOfSizes {α : Type} : List α → List ℕ → List (List α)
  | _, [] => []
  | l, s :: ss => l.take s :: chunksOfSizes (l.drop s) ss

theorem sizesGo_length (k size plusOnes : ℕ) : (sizesGo k size plusOnes).length = k := by
  induction k generalizing plusOnes with
  | zero => rfl
  | succ k ih => simp [sizesGo, ih]

theorem sizesGo_sum (k size plusOnes : ℕ) :
    (sizesGo k size plusOnes).sum = k * size + min plusOnes k := by
  induction k generalizing plusOnes with
  | zero => simp [sizesGo]
  | succ k ih =>
    unfold sizesGo
    rw [List.sum_cons, ih]
    by_cases hp : 0 < plusOnes
    · rw [if_pos hp, Nat.succ_mul]
      omega
    · rw [if_neg hp, Nat.succ_mul]
      omega

theorem sizesGo_get (k size plusOnes : ℕ) (i : ℕ) (hi : i < k) :
    (sizesGo k size plusOnes).get? i = some (if i < plusOnes then size + 1 else size) := by
  induction k generalizing plusOnes i with
  | zero => omega
  | succ k ih =>
    unfold sizesGo
    rcases i with _ | i
    · simp only [List.get?_cons_zero]
    · rw [List.get?_cons_succ, ih _ _ (by omega)]
      by_cases hp : 0 < plusOnes
      · by_cases hip : i < plusOnes - 1
        · rw [if_pos hip, if_pos (by omega)]
        · rw [if_neg hip, if_neg (by omega)]
      · rw [if_neg (by omega), if_neg (by omega)]

theorem rsGo_eq_rangesFrom (k : ℕ) :
    ∀ (offset size plusOnes : ℕ),
      rsGo k offset (sizesGo k size plusOnes).sum size plusOnes =
        some (rangesFrom offset (sizesGo k size plusOnes)) := by
  induction k with
  | zero => intro offset size plusOnes; rfl
  | succ k ih =>
    intro offset size plusOnes
    unfold rsGo sizesGo rangesFrom
    by_cases hp : 0 < plusOnes
    · simp only [if_pos hp, List.sum_cons]
      rw [if_pos (by omega), Nat.add_sub_cancel_left, ih]
      rfl
    · simp only [if_neg hp, List.sum_cons]
      rw [if_pos (by omega), Nat.add_sub_cancel_left, ih]
      rfl

theorem chunksOfSizes_length {α : Type} (sizes : List ℕ) :
    ∀ l : List α, (chunksOfSizes l sizes).length = sizes.length := by
  induction sizes with
  | nil => intro l; rfl
  | cons s ss ih => intro l; simp [chunksOfSizes, ih]

theorem chunksOfSizes_flatten {α : Type} (sizes : List ℕ) :
    ∀ l : List α, sizes.sum = l.length → (chunksOfSizes l sizes).flatten = l := by
  induction sizes with
  | nil =>
    intro l h
    simp only [List.sum_nil] at h
    rw [show chunksOfSizes l ([] : List ℕ) = [] from rfl]
    exact (List.eq_nil_of_length_eq_zero h.symm).symm
  | cons s ss ih =>
    intro l h
    simp only [List.sum_cons] at h
    rw [show chunksOfSizes l (s :: ss) = l.take s :: chunksOfSizes (l.drop s) ss from rfl]
    rw [List.flatten_cons, ih (l.drop s) (by rw [List.length_drop]; omega)]
    exact List.take_append_drop s l

theorem chunksOfSizes_lengths {α : Type} (sizes : List ℕ) :
    ∀ l : List α, sizes.sum ≤ l.length →
      (chunksOfSizes l sizes).map List.length = sizes := by
  induction sizes with
  | nil => intro l _; rfl
  | cons s ss ih =>
    intro l h
    simp only [List.sum_cons] at h
    rw [show chunksOfSizes l (s :: ss) = l.take s :: chunksOfSizes (l.drop s) ss from rfl]
    rw [List.map_cons, List.length_take, ih (l.drop s) (by simp [List.length_drop]; omega)]
    congr 1
    omega

theorem rangesFrom_slices {α : Type} (sizes : List ℕ) :
    ∀ (offset : ℕ) (l : List α),
      (rangesFrom offset sizes).map (fun r => (l.drop r.1).take (r.2 - r.1)) =
        chunksOfSizes (l.drop offset) sizes := by
  induction sizes with
  | nil => intro offset l; rfl
  | cons s ss ih =>
    intro offset l
    rw [show rangesFrom offset (s :: ss) = (offset, offset + s) :: rangesFrom (offset + s) ss
      from rfl]
    rw [List.map_cons, ih (offset + s) l]
    rw [show chunksOfSizes (l.drop offset) (s :: ss) =
      (l.drop offset).take s :: chunksOfSizes ((l.drop offset).drop s) ss from rfl]
    rw [List.drop_drop, Nat.add_sub_cancel_left]

/-- The part sizes `RangeSplitter::split(0, L, n)` hands out. -/
def splitSizes (L n : ℕ) : List ℕ := sizesGo n (L / n) (L % n)

theorem splitSizes_sum (L n : ℕ) (hn : 1 ≤ n) : (splitSizes L n).sum = L := by
  unfold splitSizes
  rw [sizesGo_sum]
  have h1 := Nat.div_add_mod L n
  have h2 : L % n < n := Nat.mod_lt _ (by omega)
  omega

theorem splitSizes_length (L n : ℕ) : (splitSizes L n).length = n := sizesGo_length _ _ _

theorem listSplitToVec_eq {α : Type} (l : List α) (n : ℕ) (hn : 1 ≤ n) :
    listSplitToVec l n = some (chunksOfSizes l (splitSizes l.length n)) := by
  unfold listSplitToVec RangeSplitter.split
  rw [if_neg (by omega), Nat.sub_zero]
  have hr := rsGo_eq_rangesFrom n 0 (l.length / n) (l.length % n)
  rw [show sizesGo n (l.length / n) (l.length % n) = splitSizes l.length n from rfl,
    splitSizes_sum l.length n hn] at hr
  rw [hr, Option.map_some', rangesFrom_slices, List.drop_zero]

/-- `split_to_vec` on a well-formed scalar state: the parts are the row groups
of the splitter, each with the original `width` and `iteration`. -/
theorem mbVec_split_eq (S : MbVecState) (n : ℕ) (hn : 1 ≤ n) (hh : 1 ≤ S.height)
    (hlen : S.state.length = S.width * S.height) :
    S.split_to_vec n =
      some ((chunksOfSizes (chunksOfSizes S.state (splitSizes S.state.length S.height))
          (splitSizes S.height n)).map
        (fun g => { width := S.width, height := g.length
                    state := g.flatten, iteration := S.iteration })) := by
  unfold MbVecState.split_to_vec
  rw [listSplitToVec_eq S.state S.height hh]
  rw [Option.some_bind]
  rw [listSplitToVec_eq _ n hn]
  rw [show (chunksOfSizes S.state (splitSizes S.state.length S.height)).length = S.height by
    rw [chunksOfSizes_length, splitSizes_length]]
  rfl

/-- `join_vec` over parts that all carry the same `width` and `iteration`
(as the parts produced by `split_to_vec` do): both assertions pass and the
result concatenates the cell vectors and sums the heights. -/
theorem mbVec_join_uniform (w : ℕ) (it : ℤ) (gs : List (List (List MbVecCell)))
    (hne : gs ≠ []) :
    MbVecState.join_vec (gs.map (fun g =>
        { width := w, height := g.length, state := g.flatten, iteration := it })) =
      some { width := w, iteration := it
             height := (gs.map List.length).sum
             state := (gs.map List.flatten).flatten } := by
  rcases gs with _ | ⟨g, gs⟩
  · exact absurd rfl hne
  · rw [List.map_cons]
    show (if _ then _ else _) = _
    rw [if_pos]
    · simp only [Option.some.injEq]
      congr 1
      · simp only [List.map_cons, List.map_map]
        rfl
      · simp only [listJoinVec, List.map_cons, List.map_map]
        rfl
    · intro q hq
      rcases List.mem_cons.mp hq with hq | hq
      · subst hq; exact ⟨rfl, rfl⟩
      · obtain ⟨g', _, rfl⟩ := List.mem_map.mp hq
        exact ⟨rfl, rfl⟩

/-- C1: for every well-formed scalar `MbVecState` `S` (row-major cell count
`width * height`, positive height) and every `1 ≤ n ≤ 8` — also when `n`
exceeds the height, in which case some parts are empty — joining the parts
produced by splitting `S` into `n` parts returns exactly `S`: same cells in the
same order, same `width`, same `iteration` count. -/
theorem C1_split_join_roundtrip (S : MbVecState) (n : ℕ) (h1 : 1 ≤ n) (h8 : n ≤ 8)
    (hh : 1 ≤ S.height) (hlen : S.state.length = S.width * S.height) :
    (S.split_to_vec n).bind MbVecState.join_vec = some S := by
  rw [mbVec_split_eq S n h1 hh hlen, Option.some_bind]
  have hrows_len : (chunksOfSizes S.state (splitSizes S.state.length S.height)).length =
      S.height := by
    rw [chunksOfSizes_length, splitSizes_length]
  have hrows_flat : (chunksOfSizes S.state (splitSizes S.state.length S.height)).flatten =
      S.state :=
    chunksOfSizes_flatten _ _ (splitSizes_sum _ _ hh)
  have hgroups_len : (chunksOfSizes (chunksOfSizes S.state
      (splitSizes S.state.length S.height)) (splitSizes S.height n)).length = n := by
    rw [chunksOfSizes_length, splitSizes_length]
  have hgroups_flat : (chunksOfSizes (chunksOfSizes S.state
      (splitSizes S.state.length S.height)) (splitSizes S.height n)).flatten =
      chunksOfSizes S.state (splitSizes S.state.length S.height) :=
    chunksOfSizes_flatten _ _ (by rw [splitSizes_sum _ _ h1, hrows_len])
  have hgroups_lengths : (chunksOfSizes (chunksOfSizes S.state
      (splitSizes S.state.length S.height)) (splitSizes S.height n)).map List.length =
      splitSizes S.height n :=
    chunksOfSizes_lengths _ _ (by rw [splitSizes_sum _ _ h1, hrows_len])
  rw [mbVec_join_uniform S.width S.iteration _
    (by intro hnil; rw [hnil] at hgroups_len; simp at hgroups_len; omega)]
  rw [hgroups_lengths, splitSizes_sum _ _ h1]
  rw [← List.flatten_flatten, hgroups_flat, hrows_flat]

/-- C1 witness: a concrete 2×3 state split into 5 > height parts and rejoined. -/
theorem C1_split_join_roundtrip_witness :
    ((mbVecStateOfGrid 2 3 [cplx 0 0, cplx 1 0, cplx 2 0, cplx 3 0, cplx 4 0,
        cplx 5 0]).split_to_vec 5).bind MbVecState.join_vec =
      some (mbVecStateOfGrid 2 3 [cplx 0 0, cplx 1 0, cplx 2 0, cplx 3 0, cplx 4 0,
        cplx 5 0]) :=
  C1_split_join_roundtrip _ 5 (by norm_num) (by norm_num) (by norm_num [mbVecStateOfGrid]) rfl

/-- `split(state, 0)` panics: division by zero in `RangeSplitter::split`. -/
theorem mbVec_split_zero (S : MbVecState) : S.split_to_vec 0 = none := by
  unfold MbVecState.split_to_vec
  rcases listSplitToVec S.state S.height with _ | rows
  · rfl
  · rw [Option.some_bind]
    unfold listSplitToVec RangeSplitter.split
    rw [if_pos rfl]
    rfl

/-- C8: for a well-formed state and `n ≥ 1`, `split_to_vec` produces exactly `n`
contiguous row-range parts in row order (their cell vectors concatenate back to
the original), with heights `height / n` plus one extra row for each of the
first `height % n` parts, every part keeping the original `width` and
`iteration`; and `split(state, 0)` is an error. -/
theorem C8_split_spec (S : MbVecState) (n : ℕ) (h1 : 1 ≤ n) (hh : 1 ≤ S.height)
    (hlen : S.state.length = S.width * S.height) :
    (∃ parts, S.split_to_vec n = some parts ∧
      parts.length = n ∧
      (parts.map MbVecState.state).flatten = S.state ∧
      (∀ i, i < n → ∃ p, parts.get? i = some p ∧
        p.height = S.height / n + (if i < S.height % n then 1 else 0) ∧
        p.width = S.width ∧ p.iteration = S.iteration)) ∧
    S.split_to_vec 0 = none := by
  refine ⟨?_, mbVec_split_zero S⟩
  rw [mbVec_split_eq S n h1 hh hlen]
  have hrows_len : (chunksOfSizes S.state (splitSizes S.state.length S.height)).length =
      S.height := by
    rw [chunksOfSizes_length, splitSizes_length]
  have hglen : (chunksOfSizes (chunksOfSizes S.state (splitSizes S.state.length S.height))
      (splitSizes S.height n)).length = n := by
    rw [chunksOfSizes_length, splitSizes_length]
  refine ⟨_, rfl, ?_, ?_, ?_⟩
  · rw [List.length_map]
    exact hglen
  · rw [List.map_map]
    have hcomp : (MbVecState.state ∘ fun g : List (List MbVecCell) =>
        ({ width := S.width, height := g.length, state := g.flatten,
           iteration := S.iteration } : MbVecState)) = List.flatten := rfl
    rw [hcomp, ← List.flatten_flatten]
    rw [chunksOfSizes_flatten _ _ (by rw [splitSizes_sum _ _ h1, hrows_len])]
    exact chunksOfSizes_flatten _ _ (splitSizes_sum _ _ hh)
  · intro i hi
    rcases hgi : (chunksOfSizes (chunksOfSizes S.state (splitSizes S.state.length S.height))
        (splitSizes S.height n)).get? i with _ | g
    · rw [List.get?_eq_none] at hgi
      omega
    · refine ⟨MbVecState.mk S.width g.length S.iteration g.flatten, ?_, ?_, rfl, rfl⟩
      · rw [List.get?_map, hgi]
        rfl
      · show g.length = _
        have hml : ((chunksOfSizes (chunksOfSizes S.state
            (splitSizes S.state.length S.height)) (splitSizes S.height n)).map
            List.length).get? i = some g.length := by
          rw [List.get?_map, hgi]
          rfl
        rw [chunksOfSizes_lengths _ _ (by rw [splitSizes_sum _ _ h1, hrows_len])] at hml
        rw [show splitSizes S.height n = sizesGo n (S.height / n) (S.height % n) from rfl,
          sizesGo_get _ _ _ i hi] at hml
        have h2 := Option.some.inj hml
        by_cases hip : i < S.height % n
        · rw [if_pos hip] at h2 ⊢
          omega
        · rw [if_neg hip] at h2 ⊢
          omega

/-- C8 witness: the concrete 2×3 state split into 2 parts (heights 2 and 1),
plus the `n = 0` error case. -/
theorem C8_split_spec_witness :
    (∃ parts, (mbVecStateOfGrid 2 3 [cplx 0 0, cplx 1 0, cplx 2 0, cplx 3 0, cplx 4 0,
        cplx 5 0]).split_to_vec 2 = some parts ∧
      parts.length = 2 ∧
      (parts.map MbVecState.state).flatten =
        (mbVecStateOfGrid 2 3 [cplx 0 0, cplx 1 0, cplx 2 0, cplx 3 0, cplx 4 0,
          cplx 5 0]).state ∧
      (∀ i, i < 2 → ∃ p, parts.get? i = some p ∧
        p.height = (mbVecStateOfGrid 2 3 [cplx 0 0, cplx 1 0, cplx 2 0, cplx 3 0,
          cplx 4 0, cplx 5 0]).height / 2 +
          (if i < (mbVecStateOfGrid 2 3 [cplx 0 0, cplx 1 0, cplx 2 0, cplx 3 0,
            cplx 4 0, cplx 5 0]).height % 2 then 1 else 0) ∧
        p.width = (mbVecStateOfGrid 2 3 [cplx 0 0, cplx 1 0, cplx 2 0, cplx 3 0,
          cplx 4 0, cplx 5 0]).width ∧
        p.iteration = (mbVecStateOfGrid 2 3 [cplx 0 0, cplx 1 0, cplx 2 0, cplx 3 0,
          cplx 4 0, cplx 5 0]).iteration)) ∧
    (mbVecStateOfGrid 2 3 [cplx 0 0, cplx 1 0, cplx 2 0, cplx 3 0, cplx 4 0,
      cplx 5 0]).split_to_vec 0 = none :=
  C8_split_spec _ 2 (by norm_num) (by norm_num [mbVecStateOfGrid]) rfl

/-- `Split::to_parts` (`src/threads.rs` lines 40-46): tag each part of
`split_to_vec` with its position. -/
def MbVecState.to_parts (s : MbVecState) (n : ℕ) : Option (List (ℕ × MbVecState)) :=
  (s.split_to_vec n).map List.enum

/-- The bucket-filling loop of `SplitPart::join` (`src/threads.rs` lines
142-160): place each tagged part at its index; `none` models `Err(JoinError)`
for an out-of-range tag (`s.n >= n`) or a duplicate tag (`parts[s.n].is_some()`). -/
def fillGo {α : Type} : List (ℕ × α) → List (Option α) → Option (List (Option α))
  | [], acc => some acc
  | ip :: rest, acc =>
    match acc.get? ip.1 with
    | none => none
    | some (some _) => none
    | some none => fillGo rest (acc.set ip.1 (some ip.2))

/-- The final `unwrap` pass of `SplitPart::join`: every bucket must be filled
(the source justifies this by pigeonhole and `unwrap`s; `none` models the
panic). -/
def allSome {α : Type} : List (Option α) → Option (List α)
  | [] => some []
  | none :: _ => none
  | some a :: rest => (allSome rest).map (a :: ·)

/-- `SplitPart::join` (`src/threads.rs` lines 142-160) over a `Join`
implementation `joinFn` (itself `Option`-valued since `join_vec` can assert):
reject an empty vector, bucket the tagged parts by index, then join in index
order. -/
def SplitPart.join {α : Type} (joinFn : List α → Option α)
    (splits : List (ℕ × α)) : Option α :=
  if splits.length = 0 then none
  else (fillGo splits (List.replicate splits.length none)).bind
    (fun buckets => (allSome buckets).bind joinFn)

theorem get?_replicate_of_lt {α : Type} (a : α) {i n : ℕ} (h : i < n) :
    (List.replicate n a).get? i = some a := by
  rw [List.get?_eq_getElem?, List.getElem?_replicate, if_pos h]

theorem allSome_map_some {α : Type} (l : List α) : allSome (l.map some) = some l := by
  induction l with
  | nil => rfl
  | cons a l ih => simp [allSome, ih]

/-- Filling buckets from distinct in-range tags over still-empty slots
succeeds, and ends with exactly the tagged values at their indices. -/
theorem fillGo_spec {α : Type} :
    ∀ (rs : List (ℕ × α)) (acc : List (Option α)),
      (rs.map Prod.fst).Nodup → (∀ ip ∈ rs, acc.get? ip.1 = some none) →
      ∃ final, fillGo rs acc = some final ∧ final.length = acc.length ∧
        (∀ ip ∈ rs, final.get? ip.1 = some (some ip.2)) ∧
        (∀ j, j ∉ rs.map Prod.fst → final.get? j = acc.get? j) := by
  intro rs
  induction rs with
  | nil => exact fun acc _ _ => ⟨acc, rfl, rfl, by simp, fun _ _ => rfl⟩
  | cons ip rest ih =>
    intro acc hnd hacc
    have hip : acc.get? ip.1 = some none := hacc ip (List.mem_cons_self _ _)
    have hnd' : (rest.map Prod.fst).Nodup := (List.nodup_cons.mp hnd).2
    have hipnot : ip.1 ∉ rest.map Prod.fst := (List.nodup_cons.mp hnd).1
    have hacc' : ∀ jp ∈ rest, (acc.set ip.1 (some ip.2)).get? jp.1 = some none := by
      intro jp hjp
      have hne : ip.1 ≠ jp.1 := by
        intro he
        exact hipnot (he ▸ List.mem_map_of_mem Prod.fst hjp)
      rw [List.get?_set_ne _ _ hne]
      exact hacc jp (List.mem_cons_of_mem _ hjp)
    obtain ⟨final, hrun, hlen, hin, hout⟩ := ih (acc.set ip.1 (some ip.2)) hnd' hacc'
    refine ⟨final, ?_, by rw [hlen, List.length_set], ?_, ?_⟩
    · unfold fillGo
      rw [hip]
      exact hrun
    · intro jp hjp
      rcases List.mem_cons.mp hjp with hjp | hjp
      · subst hjp
        rw [hout jp.1 hipnot, List.get?_set_eq]
        rw [hip]
        rfl
      · exact hin jp hjp
    · intro j hj
      have hj1 : j ∉ rest.map Prod.fst := fun h => hj (List.mem_cons_of_mem _ h)
      have hj2 : j ≠ ip.1 := by
        intro he
        exact hj (he ▸ List.mem_cons_self _ _)
      rw [hout j hj1, List.get?_set_ne _ _ (fun h => hj2 h.symm)]

/-- Reassembly by index tag is order-insensitive: for any permutation of the
tagged list of some `l`, the buckets come out as `l` itself. -/
theorem fillGo_of_perm {α : Type} (l : List α) (rs : List (ℕ × α))
    (hperm : rs.Perm l.enum) :
    fillGo rs (List.replicate rs.length none) = some (l.map some) := by
  have hlen : rs.length = l.length := by
    rw [hperm.length_eq, List.enum_length]
  have hnd : (rs.map Prod.fst).Nodup := by
    refine ((hperm.map Prod.fst).nodup_iff).mpr ?_
    rw [List.enum_map_fst]
    exact List.nodup_range _
  have hacc : ∀ ip ∈ rs, (List.replicate rs.length (none : Option α)).get? ip.1 =
      some none := by
    intro ip hip
    have := hperm.mem_iff.mp hip
    have hlt : ip.1 < l.length := by
      have h1 : ip.1 ∈ l.enum.map Prod.fst := List.mem_map_of_mem Prod.fst this
      rw [List.enum_map_fst, List.mem_range] at h1
      exact h1
    exact get?_replicate_of_lt _ (by omega)
  obtain ⟨final, hrun, hflen, hin, _⟩ := fillGo_spec rs _ hnd hacc
  rw [List.length_replicate] at hflen
  rw [hrun]
  congr 1
  refine List.ext_get? (fun j => ?_)
  by_cases hj : j < l.length
  · rcases hl : l.get? j with _ | a
    · rw [List.get?_eq_none] at hl
      omega
    · have hmem : (j, a) ∈ l.enum := List.mem_enum_iff_get?.mpr hl
      have := hin (j, a) (hperm.mem_iff.mpr hmem)
      rw [this, List.get?_map, hl]
      rfl
  · have h1 : final.get? j = none := by
      rw [List.get?_eq_none]
      omega
    have h2 : (l.map some).get? j = none := by
      rw [List.get?_eq_none, List.length_map]
      omega
    rw [h1, h2]

theorem enumFrom_map_snd_f {α β : Type} (f : α → β) (l : List α) :
    ∀ s : ℕ, (List.enumFrom s l).map (fun ip => (ip.1, f ip.2)) =
      List.enumFrom s (l.map f) := by
  induction l with
  | nil => intro s; rfl
  | cons a l ih =>
    intro s
    simp only [List.enumFrom, List.map_cons, List.map_map, ih (s + 1)]

theorem enum_map_snd_f {α β : Type} (f : α → β) (l : List α) :
    l.enum.map (fun ip => (ip.1, f ip.2)) = (l.map f).enum :=
  enumFrom_map_snd_f f l 0

theorem mbVec_split_length (S : MbVecState) (n : ℕ) (h1 : 1 ≤ n) (hh : 1 ≤ S.height)
    (hlen : S.state.length = S.width * S.height) (sparts : List MbVecState)
    (hsp : S.split_to_vec n = some sparts) : sparts.length = n := by
  rw [mbVec_split_eq S n h1 hh hlen] at hsp
  cases Option.some.inj hsp
  rw [List.length_map, chunksOfSizes_length, splitSizes_length]

/-- Joining the per-part scalar solves of a split equals solving the whole
state: `solve` acts cell-wise, preserves `width`, and stamps the same
`iteration` on every part. -/
theorem mbVec_join_map_solve (sol : MbVecSolver) (S : MbVecState) (n : ℕ)
    (h1 : 1 ≤ n) (hh : 1 ≤ S.height) (hlen : S.state.length = S.width * S.height)
    (sparts : List MbVecState) (hsp : S.split_to_vec n = some sparts) :
    MbVecState.join_vec (sparts.map sol.solve) = some (sol.solve S) := by
  rw [mbVec_split_eq S n h1 hh hlen] at hsp
  cases Option.some.inj hsp
  have hrows_len : (chunksOfSizes S.state (splitSizes S.state.length S.height)).length =
      S.height := by
    rw [chunksOfSizes_length, splitSizes_length]
  have hgroups_lengths : (chunksOfSizes (chunksOfSizes S.state
      (splitSizes S.state.length S.height)) (splitSizes S.height n)).map List.length =
      splitSizes S.height n :=
    chunksOfSizes_lengths _ _ (by rw [splitSizes_sum _ _ h1, hrows_len])
  have hgroups_flat : (chunksOfSizes (chunksOfSizes S.state
      (splitSizes S.state.length S.height)) (splitSizes S.height n)).flatten =
      chunksOfSizes S.state (splitSizes S.state.length S.height) :=
    chunksOfSizes_flatten _ _ (by rw [splitSizes_sum _ _ h1, hrows_len])
  have hrows_flat : (chunksOfSizes S.state (splitSizes S.state.length S.height)).flatten =
      S.state :=
    chunksOfSizes_flatten _ _ (splitSizes_sum _ _ hh)
  have hglen : (chunksOfSizes (chunksOfSizes S.state (splitSizes S.state.length S.height))
      (splitSizes S.height n)).length = n := by
    rw [chunksOfSizes_length, splitSizes_length]
  rw [List.map_map]
  have hcomp : (sol.solve ∘ fun g : List (List MbVecCell) =>
      ({ width := S.width, height := g.length, state := g.flatten,
         iteration := S.iteration } : MbVecState)) =
      ((fun g : List (List MbVecCell) =>
        ({ width := S.width, height := g.length, state := g.flatten,
           iteration := u16AsI16 sol.iterations } : MbVecState)) ∘
        (fun g => g.map (List.map (fun cell =>
          (List.range sol.iterations).foldl
            (fun c k => solveCellStep sol.treshold k c) cell)))) := by
    funext g
    show sol.solve _ = _
    unfold MbVecSolver.solve
    rw [foldl_map_comm]
    simp only [Function.comp_apply]
    congr 1
    · rw [List.length_map]
    · rw [← List.map_flatten]
  rw [hcomp, ← List.map_map]
  rw [mbVec_join_uniform S.width (u16AsI16 sol.iterations) _ (by
    intro hnil
    have := congrArg List.length hnil
    rw [List.length_map, hglen] at this
    simp at this
    omega)]
  congr 1
  unfold MbVecSolver.solve
  rw [foldl_map_comm]
  congr 1
  · rw [List.map_map]
    have : (List.length ∘ fun g : List (List MbVecCell) =>
        g.map (List.map (fun cell => (List.range sol.iterations).foldl
          (fun c k => solveCellStep sol.treshold k c) cell))) = List.length := by
      funext g
      exact List.length_map _ _
    rw [this, hgroups_lengths, splitSizes_sum _ _ h1]
  · rw [List.map_map]
    have : (List.flatten ∘ fun g : List (List MbVecCell) =>
        g.map (List.map (fun cell => (List.range sol.iterations).foldl
          (fun c k => solveCellStep sol.treshold k c) cell))) =
        (fun g : List (List MbVecCell) => g.flatten.map (fun cell =>
          (List.range sol.iterations).foldl
            (fun c k => solveCellStep sol.treshold k c) cell)) := by
      funext g
      rw [Function.comp_apply, ← List.map_flatten]
    rw [this]
    have hmm : (chunksOfSizes (chunksOfSizes S.state (splitSizes S.state.length S.height))
        (splitSizes S.height n)).map (fun g : List (List MbVecCell) =>
          g.flatten.map (fun cell => (List.range sol.iterations).foldl
            (fun c k => solveCellStep sol.treshold k c) cell)) =
        ((chunksOfSizes (chunksOfSizes S.state (splitSizes S.state.length S.height))
          (splitSizes S.height n)).map List.flatten).map (List.map (fun cell =>
            (List.range sol.iterations).foldl
              (fun c k => solveCellStep sol.treshold k c) cell)) := by
      rw [List.map_map]
      rfl
    rw [hmm, ← List.map_flatten, ← List.flatten_flatten, hgroups_flat, hrows_flat]

/-- C5: a pool of `n` workers (1 ≤ n ≤ 8), each applying the scalar solver to
its tagged part, returns from `call` exactly what one scalar `solve` on the
whole input returns, regardless of the order in which the tagged part-results
arrive on the shared channel (`results` is any permutation of the tagged
outputs): reassembly by index tag (`SplitPart::join`) equals applying the
per-part function to each split part and joining in ascending index order. -/
theorem C5_pool_call_equals_scalar (sol : MbVecSolver) (n : ℕ) (h1 : 1 ≤ n) (h8 : n ≤ 8)
    (S : MbVecState) (hh : 1 ≤ S.height) (hlen : S.state.length = S.width * S.height)
    (sparts : List MbVecState) (hsp : S.split_to_vec n = some sparts)
    (results : List (ℕ × MbVecState))
    (hres : results.Perm (sparts.enum.map (fun ip => (ip.1, sol.solve ip.2)))) :
    SplitPart.join MbVecState.join_vec results = some (sol.solve S) ∧
    MbVecState.join_vec (sparts.map sol.solve) = some (sol.solve S) := by
  have hjoin := mbVec_join_map_solve sol S n h1 hh hlen sparts hsp
  refine ⟨?_, hjoin⟩
  rw [enum_map_snd_f] at hres
  have hslen : sparts.length = n := mbVec_split_length S n h1 hh hlen sparts hsp
  have hrlen : results.length = n := by
    rw [hres.length_eq, List.enum_length, List.length_map, hslen]
  unfold SplitPart.join
  rw [if_neg (by omega)]
  rw [fillGo_of_perm _ _ hres, Option.some_bind, allSome_map_some, Option.some_bind]
  exact hjoin

/-- C5 witness: 2 workers on a 2×2 zero grid with the results arriving in
reversed order. -/
theorem C5_pool_call_equals_scalar_witness :
    SplitPart.join MbVecState.join_vec
        (([{ width := 2, height := 1, iteration := 0,
             state := [⟨cplx 0 0, cplx 0 0, -1⟩, ⟨cplx 0 0, cplx 0 0, -1⟩] },
           { width := 2, height := 1, iteration := 0,
             state := [⟨cplx 0 0, cplx 0 0, -1⟩,
               ⟨cplx 0 0, cplx 0 0, -1⟩] }] : List MbVecState).enum.map
          (fun ip => (ip.1, MbVecSolver.solve ⟨1, 2⟩ ip.2))).reverse =
      some (MbVecSolver.solve ⟨1, 2⟩
        (mbVecStateOfGrid 2 2 [cplx 0 0, cplx 0 0, cplx 0 0, cplx 0 0])) ∧
    MbVecState.join_vec
        (([{ width := 2, height := 1, iteration := 0,
             state := [⟨cplx 0 0, cplx 0 0, -1⟩, ⟨cplx 0 0, cplx 0 0, -1⟩] },
           { width := 2, height := 1, iteration := 0,
             state := [⟨cplx 0 0, cplx 0 0, -1⟩,
               ⟨cplx 0 0, cplx 0 0, -1⟩] }] : List MbVecState).map
          (MbVecSolver.solve ⟨1, 2⟩)) =
      some (MbVecSolver.solve ⟨1, 2⟩
        (mbVecStateOfGrid 2 2 [cplx 0 0, cplx 0 0, cplx 0 0, cplx 0 0])) :=
  C5_pool_call_equals_scalar ⟨1, 2⟩ 2 (by norm_num) (by norm_num)
    (mbVecStateOfGrid 2 2 [cplx 0 0, cplx 0 0, cplx 0 0, cplx 0 0])
    (by norm_num [mbVecStateOfGrid]) rfl _ rfl _ (List.reverse_perm _)

/-- Lane-minimum with `+∞` as identity: models `f64x4::min` where the unset
sentinel is `f64::INFINITY` (`none` here). -/
def infMin (a b : Option ℚ) : Option ℚ :=
  match a, b with
  | none, b => b
  | some x, none => some x
  | some x, some y => some (min x y)

/-- `SimdVecCell` (`src/solver/simdvec.rs` lines 49-54): four cells packed in a
lane.  All `f64x4`/`DMat2x4` lane operations in the source act elementwise per
slot, and `C4 = DMat2x4` holds per slot the 2×2 matrix representation
`[[re, -im], [im, re]]` of a complex number, whose matrix products/sums compute
exactly the complex products/sums; a lane is therefore modelled as four
independent slots (`Fin 4`), with `i` an `Option ℚ` per slot (`none` =
`f64::INFINITY`, the unset sentinel). -/
structure SimdVecCell where
  c : Fin 4 → Cplx
  z : Fin 4 → Cplx
  i : Fin 4 → Option ℚ

/-- `SimdVecState` (`src/solver/simdvec.rs` lines 69-74): no iteration field. -/
structure SimdVecState where
  width : ℕ
  height : ℕ
  state : List SimdVecCell

/-- Rust `f64 as i16` (saturating, truncating toward zero) on a finite value. -/
def ratAsI16 (q : ℚ) : ℤ := max (-32768) (min 32767 (if 0 ≤ q then ⌊q⌋ else ⌈q⌉))

/-- The slot `n % 4` within a lane. -/
def slotIdx (n : ℕ) : Fin 4 := ⟨n % 4, by omega⟩

/-- `SimdVecState::i_value` (`src/solver/simdvec.rs` lines 83-91): look up slot
`n % 4` of lane `n / 4` for `n = width * y + x`; `INFINITY` reads as `-1`. -/
def SimdVecState.i_value (s : SimdVecState) (x y : ℕ) : Option ℤ :=
  (s.state.get? ((s.width * y + x) / 4)).map (fun cell =>
    match cell.i (slotIdx (s.width * y + x)) with
    | none => -1
    | some q => ratAsI16 q)

/-- One pass of the inner loop of `SimdVecSolver::solve` with the (already
incremented) iteration counter value: `z ← z² + c` on every slot, and
`i ← min i (diverged ? iteration : ∞)`. -/
def simdLaneStep (treshold : ℚ) (iteration : ℚ) (cell : SimdVecCell) : SimdVecCell :=
  { cell with
    z := fun j => cell.z j * cell.z j + cell.c j
    i := fun j =>
      infMin (cell.i j)
        (if normGt (cell.z j * cell.z j + cell.c j) treshold then some iteration
         else none) }

/-- `SimdVecSolver` (`src/solver/simdvec.rs`): only a threshold; the iteration
budget is hard-coded. -/
structure SimdVecSolver where
  treshold : ℚ

/-- `SimdVecSolver::solve` (`src/solver/simdvec.rs` lines 169-184): for every
lane, run exactly 100 steps; the per-lane counter starts at 0 and is
incremented before each step, so step `k` (0-based) uses the value `k + 1`. -/
def SimdVecSolver.solve (s : SimdVecSolver) (st : SimdVecState) : SimdVecState :=
  { st with state := st.state.map (fun cell =>
      (List.range 100).foldl (fun c (k : ℕ) => simdLaneStep s.treshold ((k : ℚ) + 1) c) cell) }

/-- Packing a coordinate list into lanes of four, as `From<Coords<C<f64>>> for
SimdVecState` (`src/solver/simdvec.rs` lines 94-117) does: each lane starts
with `z = c` and `i = INFINITY`. -/
def toLanes : List Cplx → List SimdVecCell
  | c0 :: c1 :: c2 :: c3 :: rest =>
    ⟨![c0, c1, c2, c3], ![c0, c1, c2, c3], fun _ => none⟩ :: toLanes rest
  | _ => []

/-- A fresh SIMD state over a grid; `none` models `assert!(cs.len() % 4 == 0)`. -/
def simdVecStateOfGrid (width height : ℕ) (cs : List Cplx) : Option SimdVecState :=
  if cs.length % 4 = 0 then
    some { width := width, height := height, state := toLanes cs }
  else none

theorem infMin_none (a : Option ℚ) : infMin a none = a := by
  rcases a with _ | x
  · rfl
  · rfl

theorem infMin_assoc (a b c : Option ℚ) : infMin (infMin a b) c = infMin a (infMin b c) := by
  rcases a with _ | x <;> rcases b with _ | y <;> rcases c with _ | z <;>
    simp [infMin, min_assoc]

/-- The slot-projection of the SIMD lane loop: each slot evolves independently;
starting from orbit value `zseq c z0 j` before step `j + 1`, after `m` further
steps the slot's `z` is the orbit value and its `i` is the lane-min of the old
`i` with the first escape step among the steps performed. -/
theorem simdSlot_range_eq (t : ℚ) (c z0 : Cplx) (m : ℕ) :
    ∀ (j : ℕ) (cell : SimdVecCell) (s : Fin 4),
      cell.c s = c → cell.z s = zseq c z0 j →
      (((List.range' j m).foldl (fun cl (k : ℕ) => simdLaneStep t ((k : ℚ) + 1) cl) cell).c s = c ∧
       ((List.range' j m).foldl (fun cl (k : ℕ) => simdLaneStep t ((k : ℚ) + 1) cl) cell).z s =
         zseq c z0 (j + m) ∧
       ((List.range' j m).foldl (fun cl (k : ℕ) => simdLaneStep t ((k : ℚ) + 1) cl) cell).i s =
         infMin (cell.i s)
           ((firstEscapeGo c t (zseq c z0 j) (j + 1) m).map (fun (k : ℕ) => (k : ℚ)))) := by
  induction m with
  | zero =>
    intro j cell s hc hz
    refine ⟨hc, by simpa using hz, ?_⟩
    rw [show firstEscapeGo c t (zseq c z0 j) (j + 1) 0 = none from rfl]
    rw [Option.map_none', infMin_none]
    rfl
  | succ m ih =>
    intro j cell s hc hz
    rw [List.range'_succ, List.foldl_cons]
    have hstep_c : (simdLaneStep t ((j : ℚ) + 1) cell).c s = c := hc
    have hstep_z : (simdLaneStep t ((j : ℚ) + 1) cell).z s = zseq c z0 (j + 1) := by
      show cell.z s * cell.z s + cell.c s = _
      rw [hc, hz]
      rfl
    have hstep_i : (simdLaneStep t ((j : ℚ) + 1) cell).i s =
        infMin (cell.i s)
          (if normGt (zseq c z0 (j + 1)) t then some ((j : ℚ) + 1) else none) := by
      show infMin (cell.i s) _ = _
      rw [hc, hz]
      rfl
    obtain ⟨ihc, ihz, ihi⟩ := ih (j + 1) (simdLaneStep t ((j : ℚ) + 1) cell) s hstep_c hstep_z
    refine ⟨ihc, by rw [ihz]; congr 1; omega, ?_⟩
    rw [ihi, hstep_i, infMin_assoc]
    congr 1
    have hunf : firstEscapeGo c t (zseq c z0 j) (j + 1) (m + 1) =
        if normGt (zseq c z0 (j + 1)) t then some (j + 1)
        else firstEscapeGo c t (zseq c z0 (j + 1)) (j + 1 + 1) m := by
      conv_lhs => unfold firstEscapeGo
      rfl
    rw [hunf]
    by_cases hd : normGt (zseq c z0 (j + 1)) t
    · rw [if_pos hd, if_pos hd]
      rcases hgo : firstEscapeGo c t (zseq c z0 (j + 1)) (j + 1 + 1) m with _ | k
      · simp [infMin]
      · have hk := firstEscapeGo_some_bounds hgo
        have hle : ((j : ℚ) + 1) ≤ (k : ℚ) := by
          have h1 : (j + 1 : ℕ) ≤ k := by omega
          exact_mod_cast h1
        simp only [Option.map_some', infMin]
        rw [min_eq_left hle]
        push_cast
        rfl
    · rw [if_neg hd, if_neg hd]
      rcases firstEscapeGo c t (zseq c z0 (j + 1)) (j + 1 + 1) m with _ | k
      · rfl
      · rfl

theorem zipWith3_get? {α β γ δ : Type} (f : α → β → γ → δ) :
    ∀ (l1 : List α) (l2 : List β) (l3 : List γ) (i : ℕ),
      (List.zipWith3 f l1 l2 l3).get? i =
        match l2.get? i, l3.get? i, l1.get? i with
        | some b, some c, some a => some (f a b c)
        | _, _, _ => none := by
  intro l1
  induction l1 with
  | nil =>
    intro l2 l3 i
    have hL : (List.zipWith3 f ([] : List α) l2 l3).get? i = none := by
      cases l2 <;> cases l3 <;> cases i <;> rfl
    rw [hL, List.get?_nil]
    split <;> simp_all
  | cons a l1 ih =>
    intro l2 l3 i
    cases l2 with
    | nil =>
      have hL : (List.zipWith3 f (a :: l1) ([] : List β) l3).get? i = none := by
        cases l3 <;> cases i <;> rfl
      rw [hL, List.get?_nil]
    | cons b l2 =>
      cases l3 with
      | nil =>
        have hL : (List.zipWith3 f (a :: l1) (b :: l2) ([] : List γ)).get? i = none := by
          cases i <;> rfl
        rw [hL, List.get?_nil]
        split <;> simp_all
      | cons c l3 =>
        cases i with
        | zero => rfl
        | succ i => exact ih l2 l3 i

theorem length_zipWith3 {α β γ δ : Type} (f : α → β → γ → δ) :
    ∀ (l1 : List α) (l2 : List β) (l3 : List γ),
      (List.zipWith3 f l1 l2 l3).length = min (min l1.length l2.length) l3.length := by
  intro l1
  induction l1 with
  | nil => intro l2 l3; simp [List.zipWith3]
  | cons a l1 ih =>
    intro l2 l3
    cases l2 with
    | nil => cases l3 <;> simp [List.zipWith3]
    | cons b l2 =>
      cases l3 with
      | nil => simp [List.zipWith3]
      | cons c l3 =>
        simp only [List.zipWith3, List.length_cons, ih]
        omega

/-- A single dense `iterate` keeps an already-set `i` cell, the array length
invariants, and the dimensions. -/
theorem mbArray_iterate_keeps (asol : MbArraySolver) (ast : MbArrayState) (idx : ℕ)
    (w : ℤ) (hw : ast.ia.get? idx = some w) (hwne : w ≠ -1)
    (hza : ast.za.length = ast.ia.length) (hca : ast.ca.length = ast.ia.length) :
    (asol.iterate ast).ia.get? idx = some w ∧
    (asol.iterate ast).za.length = (asol.iterate ast).ia.length ∧
    (asol.iterate ast).ca.length = (asol.iterate ast).ia.length ∧
    (asol.iterate ast).width = ast.width := by
  have hidx : idx < ast.ia.length := by
    by_contra hbig
    rw [List.get?_eq_none.mpr (by omega)] at hw
    exact Option.noConfusion hw
  have hzv : ∃ zv, ast.za.get? idx = some zv := by
    rcases hz : ast.za.get? idx with _ | zv
    · rw [List.get?_eq_none] at hz
      omega
    · exact ⟨zv, rfl⟩
  have hcv : ∃ cv, ast.ca.get? idx = some cv := by
    rcases hc : ast.ca.get? idx with _ | cv
    · rw [List.get?_eq_none] at hc
      omega
    · exact ⟨cv, rfl⟩
  obtain ⟨zv, hzv⟩ := hzv
  obtain ⟨cv, hcv⟩ := hcv
  refine ⟨?_, ?_, ?_, rfl⟩
  · show (List.zipWith3 _ ast.ia ast.za ast.ca).get? idx = some w
    rw [zipWith3_get?, hw, hzv, hcv]
    simp only [hwne, false_and, if_false]
  · show (List.zipWith _ ast.za ast.ca).length = (List.zipWith3 _ ast.ia ast.za ast.ca).length
    rw [List.length_zipWith, length_zipWith3]
    omega
  · show ast.ca.length = (List.zipWith3 _ ast.ia ast.za ast.ca).length
    rw [length_zipWith3]
    omega

/-- C4 (amended): escape is monotonic for the scalar and the dense backends:
once `i_value(x, y)` is set (not `-1`), applying `solve` any further number of
times returns a state with the same value there.  (The SIMD backend violates
the original claim; see the counterexample.) -/
theorem C4_escape_monotonic (sol : MbVecSolver) (asol : MbArraySolver)
    (st : MbVecState) (ast : MbArrayState) (x y : ℕ) (v w : ℤ) (m : ℕ)
    (hv : st.i_value x y = some v) (hvne : v ≠ -1)
    (hw : ast.i_value x y = some w) (hwne : w ≠ -1)
    (hza : ast.za.length = ast.ia.length) (hca : ast.ca.length = ast.ia.length) :
    ((sol.solve)^[m] st).i_value x y = some v ∧
    ((asol.solve)^[m] ast).i_value x y = some w := by
  constructor
  · -- scalar: the per-cell loop is the identity on escaped cells
    unfold MbVecState.i_value at hv
    rcases hcell : st.state.get? (y * st.width + x) with _ | cell
    · rw [hcell] at hv
      exact Option.noConfusion hv
    · rw [hcell] at hv
      have hvi : cell.i = v := Option.some.inj hv
      have hwidth : ∀ k, ((sol.solve)^[k] st).width = st.width := by
        intro k
        induction k with
        | zero => rfl
        | succ k ih => rw [Function.iterate_succ_apply']; exact ih
      have hmain : ∀ k, ((sol.solve)^[k] st).state.get? (y * st.width + x) = some cell := by
        intro k
        induction k with
        | zero => exact hcell
        | succ k ih =>
          rw [Function.iterate_succ_apply']
          rw [MbVecSolver.solve_state, List.get?_map, ih, Option.map_some']
          rw [foldl_solveCellStep_escaped _ (hvi ▸ hvne)]
      unfold MbVecState.i_value
      rw [hwidth m, hmain m, Option.map_some', hvi]
  · -- dense: `iterate` never rewrites a non-sentinel i
    unfold MbArrayState.i_value at hw
    have hP : ∀ k, ((asol.iterate)^[k] ast).ia.get? (y * ast.width + x) = some w ∧
        ((asol.iterate)^[k] ast).za.length = ((asol.iterate)^[k] ast).ia.length ∧
        ((asol.iterate)^[k] ast).ca.length = ((asol.iterate)^[k] ast).ia.length ∧
        ((asol.iterate)^[k] ast).width = ast.width := by
      intro k
      induction k with
      | zero => exact ⟨hw, hza, hca, rfl⟩
      | succ k ih =>
        obtain ⟨h1, h2, h3, h4⟩ := ih
        rw [Function.iterate_succ_apply']
        obtain ⟨g1, g2, g3, g4⟩ := mbArray_iterate_keeps asol _ _ w h1 hwne h2 h3
        exact ⟨g1, g2, g3, by rw [g4, h4]⟩
    have hsolve : ∀ k, (asol.solve)^[k] ast = (asol.iterate)^[k * asol.iterations] ast := by
      intro k
      induction k with
      | zero => simp
      | succ k ih =>
        rw [Function.iterate_succ_apply', ih, MbArraySolver.solve,
          ← Function.iterate_add_apply]
        congr 1
        ring
    unfold MbArrayState.i_value
    rw [hsolve m]
    obtain ⟨h1, _, _, h4⟩ := hP (m * asol.iterations)
    rw [h4, h1]

/-- A SIMD state whose first slot has `c = 0`, a large real iterate `z = 3`, and
an already-set escape value `i = 5` (as left behind by an earlier solve of a
diverging cell). -/
def simdCexState : SimdVecState :=
  { width := 4, height := 1
    state := [⟨![cplx 0 0, cplx 0 0, cplx 0 0, cplx 0 0],
               ![cplx 3 0, cplx 0 0, cplx 0 0, cplx 0 0],
               fun j => if j = 0 then some 5 else none⟩] }

theorem ratAsI16_ofNat (k : ℕ) (hk : k ≤ 32767) : ratAsI16 (k : ℚ) = (k : ℤ) := by
  unfold ratAsI16
  rw [if_pos (by positivity), Int.floor_natCast]
  omega

/-- `i_value` after one SIMD `solve` call, through the lane holding the cell:
the slot's `i` is lane-min'ed with the first escape step (within the hard-coded
100) of the orbit continuing from the slot's current `z`. -/
theorem simd_solve_i_value (t : ℚ) (st : SimdVecState) (x y : ℕ) (lane : SimdVecCell)
    (hl : st.state.get? ((st.width * y + x) / 4) = some lane) :
    (SimdVecSolver.solve ⟨t⟩ st).i_value x y =
      some (match infMin (lane.i (slotIdx (st.width * y + x)))
          ((firstEscape (lane.c (slotIdx (st.width * y + x)))
            (lane.z (slotIdx (st.width * y + x))) t 100).map (fun (k : ℕ) => (k : ℚ))) with
        | none => -1
        | some q => ratAsI16 q) := by
  obtain ⟨_, _, hi⟩ := simdSlot_range_eq t (lane.c (slotIdx (st.width * y + x)))
    (lane.z (slotIdx (st.width * y + x))) 100 0 lane (slotIdx (st.width * y + x)) rfl rfl
  unfold SimdVecState.i_value SimdVecSolver.solve
  rw [List.get?_map, hl, Option.map_some', Option.map_some']
  rw [List.range_eq_range']
  rw [hi]
  rfl

/-- C4 counterexample: the SIMD backend can change an already-set `i_value`.
The first slot of `simdCexState` carries `i = 5`, but one further `solve` call
(threshold 2.0) lowers it to 1: the slot diverges again at the first step of
the new call and `i` is updated with a lane-minimum. -/
theorem C4_counterexample :
    simdCexState.i_value 0 0 = some 5 ∧
    (SimdVecSolver.solve ⟨2⟩ simdCexState).i_value 0 0 = some 1 ∧
    (5 : ℤ) ≠ 1 := by
  have hc : ∀ q : Fin 4 → Cplx, (SimdVecCell.mk
      ![cplx 0 0, cplx 0 0, cplx 0 0, cplx 0 0] q
      (fun j => if j = 0 then some 5 else none)).c (slotIdx (4 * 0 + 0)) =
      cplx 0 0 := fun _ => rfl
  have hz : (SimdVecCell.mk ![cplx 0 0, cplx 0 0, cplx 0 0, cplx 0 0]
      ![cplx 3 0, cplx 0 0, cplx 0 0, cplx 0 0]
      (fun j => if j = 0 then some 5 else none)).z (slotIdx (4 * 0 + 0)) =
      cplx 3 0 := rfl
  have hii : (SimdVecCell.mk ![cplx 0 0, cplx 0 0, cplx 0 0, cplx 0 0]
      ![cplx 3 0, cplx 0 0, cplx 0 0, cplx 0 0]
      (fun j => if j = 0 then some 5 else none)).i (slotIdx (4 * 0 + 0)) =
      some 5 := rfl
  refine ⟨?_, ?_, by norm_num⟩
  · show some (ratAsI16 5) = some 5
    rw [show (5 : ℚ) = ((5 : ℕ) : ℚ) by norm_num, ratAsI16_ofNat 5 (by norm_num)]
    rfl
  · rw [simd_solve_i_value 2 simdCexState 0 0 _ rfl]
    rw [show simdCexState.width = 4 from rfl] at *
    rw [hii, hc, hz]
    rw [firstEscape_one (t := 2)
      (by norm_num [normGt, mbStep, Cplx.normSq, cplx, Cplx.mul_def, Cplx.add_def])
      (by norm_num : (1 : ℕ) ≤ 100)]
    rw [show Option.map (fun k : ℕ => (k : ℚ)) (some 1) = some (1 : ℚ) from rfl]
    rw [show infMin (some (5 : ℚ)) (some (1 : ℚ)) = some (min (5 : ℚ) 1) from rfl]
    rw [min_eq_right (by norm_num : (1 : ℚ) ≤ 5)]
    show some (ratAsI16 1) = some 1
    rw [show (1 : ℚ) = ((1 : ℕ) : ℚ) by norm_num, ratAsI16_ofNat 1 (by norm_num)]
    rfl

/-- C4 witness: the amended monotonicity at a concrete escaped scalar cell and a
concrete escaped dense cell, through two further solve calls. -/
theorem C4_escape_monotonic_witness :
    ((MbVecSolver.solve ⟨1, 2⟩)^[2]
      { width := 1, height := 1, iteration := 1
        state := [⟨cplx 2 0, cplx 6 0, 0⟩] }).i_value 0 0 = some 0 ∧
    ((MbArraySolver.solve ⟨1, 2⟩)^[2]
      { width := 1, height := 1, iteration := 1
        ca := [cplx 2 0], za := [cplx 6 0], ia := [1] }).i_value 0 0 = some 1 :=
  C4_escape_monotonic ⟨1, 2⟩ ⟨1, 2⟩ _ _ 0 0 0 1 2 rfl (by norm_num) rfl (by norm_num)
    rfl rfl

/-- `impl Join for MbArrayState` (`src/solver/array.rs` lines 102-136): `none`
models the `states[0]` panic on an empty vector and the `panic!("different
width")` / `panic!("different iteration")` checks; on success the heights are
summed and the arrays concatenated along axis 0 (for well-formed states the
`concatenate(...).unwrap()` cannot fail once the width check has passed, since
all arrays then share the same number of columns). -/
def MbArrayState.join_vec : List MbArrayState → Option MbArrayState
  | [] => none
  | p :: ps =>
    if ∀ q ∈ p :: ps, q.width = p.width ∧ q.iteration = p.iteration then
      some { width := p.width, iteration := p.iteration
             height := ((p :: ps).map MbArrayState.height).sum
             ca := ((p :: ps).map MbArrayState.ca).flatten
             za := ((p :: ps).map MbArrayState.za).flatten
             ia := ((p :: ps).map MbArrayState.ia).flatten }
    else none

/-- `impl Join for SimdVecState` (`src/solver/simdvec.rs` lines 138-154): `none`
models the `parts[0]` panic and `assert!(part.width == width)`; there is no
iteration count in this state type, so the width check is the whole
precondition. -/
def SimdVecState.join_vec : List SimdVecState → Option SimdVecState
  | [] => none
  | p :: ps =>
    if ∀ q ∈ p :: ps, q.width = p.width then
      some { width := p.width
             height := ((p :: ps).map SimdVecState.height).sum
             state := ((p :: ps).map SimdVecState.state).flatten }
    else none

/-- C7: for every backend's state type, `join` on a nonempty parts vector checks
its precondition and fails loudly exactly when it is violated: the scalar and
dense joins succeed iff every part shares the first part's `width` and
`iteration` count, and the SIMD join (whose state carries no iteration count,
making that half of the precondition vacuous) succeeds iff every part shares
the first part's `width`. -/
theorem C7_join_checks_precondition :
    (∀ (p : MbVecState) (ps : List MbVecState),
      (MbVecState.join_vec (p :: ps)).isSome = true ↔
        ∀ q ∈ p :: ps, q.width = p.width ∧ q.iteration = p.iteration) ∧
    (∀ (p : MbArrayState) (ps : List MbArrayState),
      (MbArrayState.join_vec (p :: ps)).isSome = true ↔
        ∀ q ∈ p :: ps, q.width = p.width ∧ q.iteration = p.iteration) ∧
    (∀ (p : SimdVecState) (ps : List SimdVecState),
      (SimdVecState.join_vec (p :: ps)).isSome = true ↔
        ∀ q ∈ p :: ps, q.width = p.width) := by
  refine ⟨fun p ps => ?_, fun p ps => ?_, fun p ps => ?_⟩
  · show (if ∀ q ∈ p :: ps, q.width = p.width ∧ q.iteration = p.iteration
      then _ else none).isSome = true ↔ _
    split_ifs with h
    · exact iff_of_true rfl h
    · exact iff_of_false (by simp) h
  · show (if ∀ q ∈ p :: ps, q.width = p.width ∧ q.iteration = p.iteration
      then _ else none).isSome = true ↔ _
    split_ifs with h
    · exact iff_of_true rfl h
    · exact iff_of_false (by simp) h
  · show (if ∀ q ∈ p :: ps, q.width = p.width
      then _ else none).isSome = true ↔ _
    split_ifs with h
    · exact iff_of_true rfl h
    · exact iff_of_false (by simp) h

theorem foldl_solveCellStep_c (t : ℚ) (l : List ℕ) :
    ∀ cell : MbVecCell, (l.foldl (fun c k => solveCellStep t k c) cell).c = cell.c := by
  induction l with
  | nil => intro cell; rfl
  | cons a l ih =>
    intro cell
    rw [List.foldl_cons, ih]
    unfold solveCellStep
    split_ifs <;> rfl

theorem foldl_simdLaneStep_c (t : ℚ) (l : List ℕ) :
    ∀ cell : SimdVecCell,
      (l.foldl (fun c (k : ℕ) => simdLaneStep t ((k : ℚ) + 1) c) cell).c = cell.c := by
  induction l with
  | nil => intro cell; rfl
  | cons a l ih =>
    intro cell
    rw [List.foldl_cons, ih]
    rfl

/-- C10 (frame condition of `solve`): for every backend, the returned state has
the same `width` and `height` as the input, the same number of cells, and every
cell's source coordinate `c` is unchanged (the dense backend even shares the
`ca` array); `solve` modifies only the `z` values, the `i` values and the
iteration counter. -/
theorem C10_solve_frame :
    (∀ (sol : MbVecSolver) (st : MbVecState),
      (sol.solve st).width = st.width ∧ (sol.solve st).height = st.height ∧
      (sol.solve st).state.length = st.state.length ∧
      ∀ j, ((sol.solve st).state.get? j).map MbVecCell.c =
        (st.state.get? j).map MbVecCell.c) ∧
    (∀ (asol : MbArraySolver) (ast : MbArrayState),
      (asol.solve ast).width = ast.width ∧ (asol.solve ast).height = ast.height ∧
      (asol.solve ast).ca = ast.ca) ∧
    (∀ (ssol : SimdVecSolver) (sst : SimdVecState),
      (ssol.solve sst).width = sst.width ∧ (ssol.solve sst).height = sst.height ∧
      (ssol.solve sst).state.length = sst.state.length ∧
      ∀ j, ((ssol.solve sst).state.get? j).map SimdVecCell.c =
        (sst.state.get? j).map SimdVecCell.c) := by
  refine ⟨fun sol st => ⟨rfl, rfl, ?_, ?_⟩, fun asol ast => ?_, fun ssol sst => ⟨rfl, rfl, ?_, ?_⟩⟩
  · rw [MbVecSolver.solve_state, List.length_map]
  · intro j
    rw [MbVecSolver.solve_state, List.get?_map]
    rcases st.state.get? j with _ | cell
    · rfl
    · simp only [Option.map_some']
      rw [foldl_solveCellStep_c]
  · unfold MbArraySolver.solve
    induction asol.iterations with
    | zero => exact ⟨rfl, rfl, rfl⟩
    | succ k ih =>
      obtain ⟨h1, h2, h3⟩ := ih
      rw [Function.iterate_succ_apply']
      exact ⟨h1, h2, h3⟩
  · unfold SimdVecSolver.solve
    rw [List.length_map]
  · intro j
    unfold SimdVecSolver.solve
    rw [List.get?_map]
    rcases sst.state.get? j with _ | lane
    · rfl
    · simp only [Option.map_some']
      rw [foldl_simdLaneStep_c]

/-- C2 counterexample: for the 1×1 grid holding `c = 2+0i`, threshold 2.0 and
iteration budget 1, the scalar backend's `i_value` is 0 while the dense
backend's is 1 — the backends do not produce identical `i_value` grids. -/
theorem C2_counterexample :
    (MbVecSolver.solve ⟨1, 2⟩ (mbVecStateOfGrid 1 1 [cplx 2 0])).i_value 0 0 = some 0 ∧
    (MbArraySolver.solve ⟨1, 2⟩ (mbArrayStateOfGrid 1 1 [cplx 2 0])).i_value 0 0 = some 1 ∧
    (some (0 : ℤ) : Option ℤ) ≠ some 1 := by
  have hfe : firstEscape (cplx 2 0) (cplx 2 0) 2 1 = some 1 :=
    firstEscape_one (mbStep_two ▸ normGt_six_two) (le_refl 1)
  refine ⟨?_, ?_, by simp⟩
  · rw [mbVec_solve_fresh_i_value 1 (by norm_num) 2 1 1 0 0 [cplx 2 0]]
    rw [show ([cplx 2 0].get? (0 * 1 + 0)) = some (cplx 2 0) from rfl, Option.map_some', hfe]
    dsimp only
    norm_num [u16AsI16]
  · unfold MbArraySolver.solve
    rw [mbArray_iterate_fresh 2 1 1 [cplx 2 0] rfl 1 1]
    unfold MbArrayState.i_value
    show [firstEscapeI (cplx 2 0) 2 1].get? (0 * 1 + 0) = some 1
    unfold firstEscapeI
    rw [hfe]
    rfl

/-- The lane and slot holding cell `n` of a packed coordinate list: for
`n < cs.len` with `cs.len` a multiple of 4, lane `n / 4` exists, its slot
`n % 4` carries `c = z = cs[n]` and an unset `i`. -/
theorem toLanes_get : ∀ (cs : List Cplx) (n : ℕ), n < cs.length → cs.length % 4 = 0 →
    ∃ lane, (toLanes cs).get? (n / 4) = some lane ∧
      cs.get? n = some (lane.c (slotIdx n)) ∧
      cs.get? n = some (lane.z (slotIdx n)) ∧
      lane.i (slotIdx n) = none
  | [], n, hn, _ => absurd hn (by simp)
  | [c0], _, _, h4 => absurd h4 (by simp)
  | [c0, c1], _, _, h4 => absurd h4 (by simp)
  | [c0, c1, c2], _, _, h4 => absurd h4 (by simp)
  | c0 :: c1 :: c2 :: c3 :: rest, n, hn, h4 => by
    by_cases hlt : n < 4
    · refine ⟨⟨![c0, c1, c2, c3], ![c0, c1, c2, c3], fun _ => none⟩, ?_, ?_, ?_, rfl⟩
      · rw [show n / 4 = 0 from by omega]
        rfl
      · interval_cases n <;> rfl
      · interval_cases n <;> rfl
    · obtain ⟨m, rfl⟩ : ∃ m, n = m + 4 := ⟨n - 4, by omega⟩
      have hlen : (c0 :: c1 :: c2 :: c3 :: rest).length = rest.length + 4 := by
        simp
      have h4' : rest.length % 4 = 0 := by
        rw [hlen] at h4
        omega
      have hm : m < rest.length := by
        rw [hlen] at hn
        omega
      obtain ⟨lane, hg, hc, hz, hi⟩ := toLanes_get rest m hm h4'
      have hslot : slotIdx (m + 4) = slotIdx m := by
        simp [slotIdx, Fin.ext_iff, Nat.add_mod_right]
      refine ⟨lane, ?_, ?_, ?_, ?_⟩
      · rw [show (m + 4) / 4 = m / 4 + 1 from by omega]
        show (toLanes rest).get? (m / 4) = some lane
        exact hg
      · rw [hslot]
        show rest.get? m = some (lane.c (slotIdx m))
        exact hc
      · rw [hslot]
        show rest.get? m = some (lane.z (slotIdx m))
        exact hz
      · rw [hslot]
        exact hi

/-- C2 (amended): on a fresh state over any coordinate grid (cell count a
multiple of 4 so the SIMD packing is defined), the dense backend's `i_value`
equals the scalar backend's plus one on escaped cells and `-1` wherever the
scalar one is `-1`; and the SIMD backend — whose iteration budget is hard-coded
to 100 — produces exactly the dense backend's `i_value` grid at budget 100.
The bound `n ≤ 32767` keeps the stored values inside the `i16` range. -/
theorem C2_backend_relation (t : ℚ) (w h x y : ℕ) (cs : List Cplx)
    (hlen : cs.length = h * w) (hx : x < w) (hy : y < h)
    (h4 : cs.length % 4 = 0) (n : ℕ) (hn : n ≤ 32767) :
    (MbArraySolver.solve ⟨n, t⟩ (mbArrayStateOfGrid w h cs)).i_value x y =
      ((MbVecSolver.solve ⟨n, t⟩ (mbVecStateOfGrid w h cs)).i_value x y).map
        (fun v => if v = -1 then -1 else v + 1) ∧
    (SimdVecSolver.solve ⟨t⟩
        { width := w, height := h, state := toLanes cs }).i_value x y =
      (MbArraySolver.solve ⟨100, t⟩ (mbArrayStateOfGrid w h cs)).i_value x y := by
  have hdense : ∀ m : ℕ,
      (MbArraySolver.solve ⟨m, t⟩ (mbArrayStateOfGrid w h cs)).i_value x y =
        (cs.get? (y * w + x)).map (fun c => firstEscapeI c t m) := by
    intro m
    unfold MbArraySolver.solve
    rw [mbArray_iterate_fresh t w h cs hlen m m]
    unfold MbArrayState.i_value
    rw [List.get?_map]
  constructor
  · rw [hdense n, mbVec_solve_fresh_i_value n (by omega) t w h x y cs, Option.map_map]
    rcases hcg : cs.get? (y * w + x) with _ | c
    · rfl
    · simp only [Option.map_some', Function.comp_apply]
      congr 1
      unfold firstEscapeI
      rcases hfe : firstEscape c c t n with _ | k
      · norm_num
      · have hk := firstEscape_some_bounds hfe
        dsimp only
        rw [u16AsI16_of_lt (by omega : k - 1 < 32768)]
        rw [if_neg (by omega : ((k - 1 : ℕ) : ℤ) ≠ -1)]
        omega
  · have h3 : y * w + x < (y + 1) * w := by
      rw [Nat.succ_mul]
      omega
    have h2 : (y + 1) * w ≤ h * w := Nat.mul_le_mul_right w (by omega)
    have hnlt : y * w + x < cs.length := by omega
    obtain ⟨lane, hg, hc, hz, hi⟩ := toLanes_get cs (y * w + x) hnlt h4
    have hl : (toLanes cs).get? ((w * y + x) / 4) = some lane := by
      rw [Nat.mul_comm w y]
      exact hg
    rw [hdense 100]
    rw [simd_solve_i_value t ⟨w, h, toLanes cs⟩ x y lane hl]
    dsimp only
    rw [Nat.mul_comm w y]
    rw [hi]
    have hcz : lane.z (slotIdx (y * w + x)) = lane.c (slotIdx (y * w + x)) :=
      (Option.some.inj (hc.symm.trans hz)).symm
    rw [show infMin none ((firstEscape (lane.c (slotIdx (y * w + x)))
        (lane.z (slotIdx (y * w + x))) t 100).map (fun (k : ℕ) => (k : ℚ))) =
      (firstEscape (lane.c (slotIdx (y * w + x)))
        (lane.z (slotIdx (y * w + x))) t 100).map (fun (k : ℕ) => (k : ℚ)) from rfl]
    rw [hcz, hc, Option.map_some']
    congr 1
    unfold firstEscapeI
    rcases hfe : firstEscape (lane.c (slotIdx (y * w + x)))
        (lane.c (slotIdx (y * w + x))) t 100 with _ | k
    · rfl
    · rw [Option.map_some']
      dsimp only
      rw [ratAsI16_ofNat k (by have := firstEscape_some_bounds hfe; omega)]

/-- C2 witness: the amended relation at a concrete 2×2 zero grid, budget 1. -/
theorem C2_backend_relation_witness :
    (MbArraySolver.solve ⟨1, 2⟩
        (mbArrayStateOfGrid 2 2 [cplx 0 0, cplx 0 0, cplx 0 0, cplx 0 0])).i_value 0 0 =
      ((MbVecSolver.solve ⟨1, 2⟩
        (mbVecStateOfGrid 2 2 [cplx 0 0, cplx 0 0, cplx 0 0, cplx 0 0])).i_value 0 0).map
        (fun v => if v = -1 then -1 else v + 1) ∧
    (SimdVecSolver.solve ⟨2⟩
        { width := 2, height := 2
          state := toLanes [cplx 0 0, cplx 0 0, cplx 0 0, cplx 0 0] }).i_value 0 0 =
      (MbArraySolver.solve ⟨100, 2⟩
        (mbArrayStateOfGrid 2 2 [cplx 0 0, cplx 0 0, cplx 0 0, cplx 0 0])).i_value 0 0 :=
  C2_backend_relation 2 2 2 0 0 [cplx 0 0, cplx 0 0, cplx 0 0, cplx 0 0]
    rfl (by norm_num) (by norm_num) rfl 1 (by norm_num)

instance : Inhabited Cplx := ⟨⟨0, 0⟩⟩

instance : Inhabited MbVecCell := ⟨⟨⟨0, 0⟩, ⟨0, 0⟩, -1⟩⟩

/-- Modelled from the spec: the row-major two-dimensional buffer type
(`Coords<T>` of `src/coord.rs`, referenced by `src/solver/mod.rs` but whose
definition is not under `src/`): a `width × height` grid stored row-major. -/
structure Coords (α : Type) where
  width : ℕ
  height : ℕ
  cells : List α

/-- Row-major read at `(x, y)`: `cells[y * width + x]` (in-bounds uses only). -/
def Coords.getCell {α : Type} [Inhabited α] (g : Coords α) (x y : ℕ) : α :=
  g.cells.getD (y * g.width + x) default

/-- Row-major write at `(x, y)`. -/
def Coords.setCell {α : Type} (g : Coords α) (x y : ℕ) (v : α) : Coords α :=
  { g with cells := g.cells.set (y * g.width + x) v }

/-- Modelled from the spec: the `D2ArrayLike::new` primitive — a fresh
`width × height` buffer. -/
def Coords.new (α : Type) [Inhabited α] (width height : ℕ) : Coords α :=
  ⟨width, height, List.replicate (width * height) default⟩

/-- Modelled from the spec: the `D2ArrayLike::copy_from` primitive — copy the
entry of `other` at `(fx, fy)` to `(tx, ty)` of `self`. -/
def Coords.copy_from {α : Type} [Inhabited α] (g other : Coords α)
    (fx fy tx ty : ℕ) : Coords α :=
  g.setCell tx ty (other.getCell fx fy)

/-- Modelled from the spec: the `D2ArrayLike::copy_self` primitive — copy the
entry at `(fx, fy)` to `(tx, ty)` within the same buffer. -/
def Coords.copy_self {α : Type} [Inhabited α] (g : Coords α)
    (fx fy tx ty : ℕ) : Coords α :=
  g.setCell tx ty (g.getCell fx fy)

/-- `D2ArrayLike::copy_slice` (`src/solver/mod.rs` lines 52-67): carve the
rectangle spanned by `p1` and `p2` out into a fresh grid; `none` models the
two `assert!` panics on out-of-range corners. -/
def Coords.copy_slice {α : Type} [Inhabited α] (g : Coords α) (p1 p2 : ℕ × ℕ) :
    Option (Coords α) :=
  let xmax := max p1.1 p2.1
  let xmin := min p1.1 p2.1
  let ymax := max p1.2 p2.2
  let ymin := min p1.2 p2.2
  if xmax ≤ g.width ∧ ymax ≤ g.height then
    some ((List.range' ymin (ymax - ymin)).foldl (fun acc y =>
      (List.range' xmin (xmax - xmin)).foldl (fun acc x =>
        acc.copy_from g x y (x - xmin) (y - ymin)) acc)
      (Coords.new α (xmax - xmin) (ymax - ymin)))
  else none

/-- `D2ArrayLike::idx` (`src/solver/mod.rs` lines 68-90): turn a signed
 row/column shift into the row and column ranges of the strip it exposes;
`none` models the `assert!` panics. -/
def Coords.idx {α : Type} (g : Coords α) (row col : ℤ) : Option (ℕ × ℕ × ℕ × ℕ) :=
  let h : ℤ := g.height
  let w : ℤ := g.width
  let rows : Option (ℤ × ℤ) :=
    if 0 < row then some (0, row)
    else if 0 ≤ h + row then some (h + row, h) else none
  let cols : Option (ℤ × ℤ) :=
    if 0 < col then some (0, col)
    else if 0 ≤ w + col then some (w + col, w) else none
  match rows, cols with
  | some (rs, re), some (cs, ce) => some (rs.toNat, re.toNat, cs.toNat, ce.toNat)
  | _, _ => none

/-- `D2ArrayLike::copy_rows` (`src/solver/mod.rs` lines 99-106): the first
`row` rows (`row > 0`) or the last `-row` rows (`row < 0`) as a fresh grid. -/
def Coords.copy_rows {α : Type} [Inhabited α] (g : Coords α) (row : ℤ) :
    Option (Coords α) :=
  match g.idx row g.width with
  | some (rs, re, cs, ce) => g.copy_slice (cs, rs) (ce, re)
  | none => none

/-- `D2ArrayLike::copy_cols` (`src/solver/mod.rs` lines 91-98): the first
`col` columns (`col > 0`) or the last `-col` columns (`col < 0`). -/
def Coords.copy_cols {α : Type} [Inhabited α] (g : Coords α) (col : ℤ) :
    Option (Coords α) :=
  match g.idx g.height col with
  | some (rs, re, cs, ce) => g.copy_slice (cs, rs) (ce, re)
  | none => none

/-- The row-scanning loops of `D2ArrayLike::shift_rows` (`src/solver/mod.rs`
lines 148-168): positive shifts walk destination rows bottom-up, negative
shifts top-down, so every `copy_self` reads a row the loop has not yet
overwritten; destination rows whose source row falls outside the grid are
filled from `cp` at the offset row `y - row + cp_y_offset`. -/
def Coords.shiftRowsGo {α : Type} [Inhabited α] (g : Coords α) (row : ℤ)
    (cp : Option (Coords α)) : Coords α :=
  if row = 0 then g else
  let ys : List ℕ :=
    if 0 < row then (List.range g.height).reverse else List.range g.height
  let off : ℤ := if 0 < row then row else -(g.height : ℤ)
  ys.foldl (fun acc (y : ℕ) =>
    (List.range g.width).foldl (fun acc (x : ℕ) =>
      if 0 ≤ (y : ℤ) - row ∧ (y : ℤ) - row < (g.height : ℤ) then
        acc.copy_self x ((y : ℤ) - row).toNat x y
      else
        match cp with
        | some c => acc.copy_from c x (((y : ℤ) - row + off)).toNat x y
        | none => acc) acc) g

/-- `D2ArrayLike::shift_rows` (`src/solver/mod.rs` lines 143-169): `none`
models the two dimension `assert!`s on the splice source. -/
def Coords.shift_rows {α : Type} [Inhabited α] (g : Coords α) (row : ℤ)
    (copyFrom : Option (Coords α)) : Option (Coords α) :=
  match copyFrom with
  | some cp =>
    if cp.height = row.natAbs ∧ cp.width = g.width then
      some (g.shiftRowsGo row copyFrom)
    else none
  | none => some (g.shiftRowsGo row none)

/-- The column-scanning loops of `D2ArrayLike::shift_cols` (`src/solver/mod.rs`
lines 175-194), the transpose of `shiftRowsGo`. -/
def Coords.shiftColsGo {α : Type} [Inhabited α] (g : Coords α) (col : ℤ)
    (cp : Option (Coords α)) : Coords α :=
  if col = 0 then g else
  let xs : List ℕ :=
    if 0 < col then (List.range g.width).reverse else List.range g.width
  let off : ℤ := if 0 < col then col else -(g.width : ℤ)
  xs.foldl (fun acc (x : ℕ) =>
    (List.range g.height).foldl (fun acc (y : ℕ) =>
      if 0 ≤ (x : ℤ) - col ∧ (x : ℤ) - col < (g.width : ℤ) then
        acc.copy_self ((x : ℤ) - col).toNat y x y
      else
        match cp with
        | some c => acc.copy_from c (((x : ℤ) - col + off)).toNat y x y
        | none => acc) acc) g

/-- `D2ArrayLike::shift_cols` (`src/solver/mod.rs` lines 170-195). -/
def Coords.shift_cols {α : Type} [Inhabited α] (g : Coords α) (col : ℤ)
    (copyFrom : Option (Coords α)) : Option (Coords α) :=
  match copyFrom with
  | some cp =>
    if cp.height = g.height ∧ cp.width = col.natAbs then
      some (g.shiftColsGo col copyFrom)
    else none
  | none => some (g.shiftColsGo col none)

/-- `ci(im)` of `src/complex.rs`: a purely imaginary complex number. -/
def ci (im : ℚ) : Cplx := ⟨0, im⟩

/-- `Viewbox` (`src/coord.rs` lines 138-144): integer pixel center and pixel
dimensions (`i64`), with a pixels-per-unit scale (`f64`, modelled exactly). -/
structure Viewbox where
  centerX : ℤ
  centerY : ℤ
  width : ℤ
  height : ℤ
  scale : ℚ

/-- `Viewbox::unscaled` (`src/coord.rs` lines 178-182): map a pixel to the
complex plane by dividing both coordinates by the scale. -/
def Viewbox.unscaled (v : Viewbox) (px py : ℤ) : Cplx :=
  cr ((px : ℚ) / v.scale) + ci ((py : ℚ) / v.scale)

/-- The window's first pixel column, `self.center.x - (self.width / 2)` of
`IntoIterator for Viewbox` (`src/coord.rs` line 232); `Int.tdiv` is Rust's
truncating `i64` division. -/
def Viewbox.fromX (v : Viewbox) : ℤ := v.centerX - Int.tdiv v.width 2

/-- The window's first pixel row (`src/coord.rs` line 234). -/
def Viewbox.fromY (v : Viewbox) : ℤ := v.centerY - Int.tdiv v.height 2

/-- The pixel scan of `ViewboxIter` (`src/coord.rs` lines 193-244): `height`
rows starting at `fromY`, each scanning `width` columns from `fromX`; a
non-positive `width` never advances `x`, so each row yields the single point
`(fromX, y)`, and a non-positive `height` yields nothing. -/
def Viewbox.points (v : Viewbox) : List (ℤ × ℤ) :=
  (List.range v.height.toNat).flatMap (fun (r : ℕ) =>
    if v.width ≤ 0 then [(v.fromX, v.fromY + r)]
    else (List.range v.width.toNat).map (fun (c : ℕ) => (v.fromX + c, v.fromY + r)))

/-- `Viewbox::generate_complex_coordinates` (`src/coord.rs` lines 184-191). -/
def Viewbox.generate_complex_coordinates (v : Viewbox) : List Cplx :=
  v.points.map (fun p => v.unscaled p.1 p.2)

/-- Modelled from the spec: the coordinate buffer produced by
`generate_complex_coordinates` carries the window's pixel dimensions. -/
def Viewbox.coordGrid (v : Viewbox) : Coords Cplx :=
  ⟨v.width.toNat, v.height.toNat, v.generate_complex_coordinates⟩

/-- Modelled from the spec: `From<Coords<C<f64>>> for MbVecState` — a fresh
scalar state over the coordinate buffer, with the buffer's dimensions
(`From<Viewbox> for MbVecState`, `src/solver/vec.rs` lines 34-49, builds the
same state from the materialized coordinates). -/
def Coords.toVecState (g : Coords Cplx) : MbVecState :=
  mbVecStateOfGrid g.width g.height g.cells

/-- Modelled from the spec: the scalar state viewed as a `D2ArrayLike`
two-dimensional cell array (the impl is not under `src/`): the row-major
cells with the state's dimensions, one whole `MbVecCell` per entry. -/
def MbVecState.toCoords (s : MbVecState) : Coords MbVecCell :=
  ⟨s.width, s.height, s.state⟩

/-- `shift_rows` on the scalar state: shift the cell array in place; the
state's dimensions and `iteration` counter are untouched. -/
def MbVecState.shift_rows (s : MbVecState) (row : ℤ) (cp : Option MbVecState) :
    Option MbVecState :=
  (s.toCoords.shift_rows row (cp.map MbVecState.toCoords)).map
    (fun g => { s with state := g.cells })

/-- `shift_cols` on the scalar state. -/
def MbVecState.shift_cols (s : MbVecState) (col : ℤ) (cp : Option MbVecState) :
    Option MbVecState :=
  (s.toCoords.shift_cols col (cp.map MbVecState.toCoords)).map
    (fun g => { s with state := g.cells })

/-- `Mandelbrot` (`src/lib.rs` lines 24-28) specialized to the scalar backend
(`defaults::State = VecState`, `src/lib.rs` lines 125-129). -/
structure Mandelbrot where
  solver : MbVecSolver
  position : Viewbox
  state : MbVecState

/-- `Mandelbrot::pan_fast_vertical` (`src/lib.rs` lines 97-102): move the
center by `y` rows, solve only the newly exposed rows (`copy_rows (-y)` of the
new window's coordinates) and splice them into the shifted state; `none`
models the panics of `copy_rows` / `shift_rows`. -/
def Mandelbrot.pan_fast_vertical (m : Mandelbrot) (y : ℤ) : Option Mandelbrot :=
  let position := { m.position with centerY := m.position.centerY + y }
  match position.coordGrid.copy_rows (-y) with
  | some newCoordRows =>
    let newStateRows := m.solver.solve newCoordRows.toVecState
    (m.state.shift_rows (-y) (some newStateRows)).map
      (fun st => { m with position := position, state := st })
  | none => none

/-- `Mandelbrot::pan_fast_horizontal` (`src/lib.rs` lines 110-115). -/
def Mandelbrot.pan_fast_horizontal (m : Mandelbrot) (x : ℤ) : Option Mandelbrot :=
  let position := { m.position with centerX := m.position.centerX + x }
  match position.coordGrid.copy_cols (-x) with
  | some newCoordCols =>
    let newStateCols := m.solver.solve newCoordCols.toVecState
    (m.state.shift_cols (-x) (some newStateCols)).map
      (fun st => { m with position := position, state := st })
  | none => none

theorem rowMajor_lt {w x1 : ℕ} (x2 y1 y2 : ℕ) (hx1 : x1 < w) (hy : y1 < y2) :
    y1 * w + x1 < y2 * w + x2 := by
  have h1 : y1 * w + x1 < (y1 + 1) * w := by rw [Nat.succ_mul]; omega
  have h2 : (y1 + 1) * w ≤ y2 * w := Nat.mul_le_mul_right w hy
  omega

/-- Row-major flat indices are componentwise injective. -/
theorem rowMajor_eq_iff {w x1 y1 x2 y2 : ℕ} (hx1 : x1 < w) (hx2 : x2 < w) :
    y1 * w + x1 = y2 * w + x2 ↔ (y1 = y2 ∧ x1 = x2) := by
  constructor
  · intro h
    rcases Nat.lt_trichotomy y1 y2 with hy | hy | hy
    · exact absurd h (Nat.ne_of_lt (rowMajor_lt x2 y1 y2 hx1 hy))
    · refine ⟨hy, ?_⟩
      subst hy
      omega
    · exact absurd h (Nat.ne_of_gt (rowMajor_lt x1 y2 y1 hx2 hy))
  · rintro ⟨rfl, rfl⟩
    rfl

theorem rowMajor_bound {w h x y : ℕ} (hx : x < w) (hy : y < h) :
    y * w + x < w * h := by
  calc y * w + x < (y + 1) * w := by rw [Nat.succ_mul]; omega
    _ ≤ h * w := Nat.mul_le_mul_right w hy
    _ = w * h := Nat.mul_comm h w

/-- A fold of writes leaves the buffer's length unchanged. -/
theorem foldl_set_length {α ι : Type} (key : ι → ℕ) (v : List α → ι → α) :
    ∀ (ds : List ι) (acc : List α),
      (ds.foldl (fun l e => l.set (key e) (v l e)) acc).length = acc.length := by
  intro ds
  induction ds with
  | nil => intro acc; rfl
  | cons d rest ih =>
      intro acc
      simp only [List.foldl_cons]
      rw [ih, List.length_set]

/-- Characterization of a fold of pure writes (no reads of the evolving
buffer): positions never written keep their value, and a written position
holds its writer's value provided the write keys are distinct. -/
theorem foldWritePure_get {α ι : Type} (key : ι → ℕ) (s : ι → α) :
    ∀ (ds : List ι) (acc : List α), (ds.map key).Nodup →
    (∀ q, (∀ d ∈ ds, key d ≠ q) →
        (ds.foldl (fun l e => l.set (key e) (s e)) acc).get? q = acc.get? q) ∧
    (∀ d ∈ ds,
        (ds.foldl (fun l e => l.set (key e) (s e)) acc).get? (key d)
          = (acc.get? (key d)).map (fun _ => s d)) := by
  intro ds
  induction ds with
  | nil =>
      intro acc _
      exact ⟨fun q _ => rfl, fun d hd => absurd hd (List.not_mem_nil d)⟩
  | cons d rest ih =>
      intro acc hnodup
      rw [List.map_cons, List.nodup_cons] at hnodup
      obtain ⟨hkd, hnodup'⟩ := hnodup
      obtain ⟨IH1, IH2⟩ := ih (acc.set (key d) (s d)) hnodup'
      constructor
      · intro q hq
        simp only [List.foldl_cons]
        rw [IH1 q (fun e he => hq e (List.mem_cons_of_mem _ he))]
        exact List.get?_set_ne _ _ (hq d (List.mem_cons_self _ _))
      · intro e he
        simp only [List.foldl_cons]
        rcases List.mem_cons.mp he with rfl | he'
        · rw [IH1 (key e) (fun e' he' heq => hkd (heq ▸ List.mem_map_of_mem key he'))]
          rw [List.get?_set_eq]
          rfl
        · rw [IH2 e he']
          have hne : key d ≠ key e := fun heq => hkd (heq ▸ List.mem_map_of_mem key he')
          rw [List.get?_set_ne _ _ hne]

/-- Characterization of a fold of writes whose values may read the evolving
buffer at position `r e` (the in-place `copy_self` loops): provided no write
key collides with a later read (`Pairwise` clause), every read sees the
original buffer, so a written position holds the value computed from the
pristine buffer `g0`. -/
theorem foldWrite_get {α ι : Type} [Inhabited α] (g0 : List α) (key : ι → ℕ)
    (P : ι → Prop) [DecidablePred P] (r : ι → ℕ) (s : ι → α) :
    ∀ (ds : List ι) (acc : List α),
    (∀ d ∈ ds, P d → acc.get? (r d) = g0.get? (r d)) →
    (ds.map key).Nodup →
    List.Pairwise (fun a b => P b → r b ≠ key a) ds →
    (∀ q, (∀ d ∈ ds, key d ≠ q) →
        (ds.foldl (fun l e =>
          l.set (key e) (if P e then l.getD (r e) default else s e)) acc).get? q
          = acc.get? q) ∧
    (∀ d ∈ ds,
        (ds.foldl (fun l e =>
          l.set (key e) (if P e then l.getD (r e) default else s e)) acc).get? (key d)
          = (acc.get? (key d)).map
              (fun _ => if P d then g0.getD (r d) default else s d)) := by
  intro ds
  induction ds with
  | nil =>
      intro acc _ _ _
      exact ⟨fun q _ => rfl, fun d hd => absurd hd (List.not_mem_nil d)⟩
  | cons d rest ih =>
      intro acc hagree hnodup hpair
      rw [List.map_cons, List.nodup_cons] at hnodup
      obtain ⟨hkd, hnodup'⟩ := hnodup
      rw [List.pairwise_cons] at hpair
      obtain ⟨hpd, hpair'⟩ := hpair
      have hval : (if P d then acc.getD (r d) default else s d)
          = (if P d then g0.getD (r d) default else s d) := by
        by_cases hp : P d
        · rw [if_pos hp, if_pos hp, List.getD_eq_get?, List.getD_eq_get?,
            hagree d (List.mem_cons_self d rest) hp]
        · rw [if_neg hp, if_neg hp]
      have hagree' : ∀ e ∈ rest, P e →
          (acc.set (key d) (if P d then acc.getD (r d) default else s d)).get? (r e)
            = g0.get? (r e) := by
        intro e he hp
        rw [List.get?_set_ne _ _ (hpd e he hp).symm]
        exact hagree e (List.mem_cons_of_mem _ he) hp
      obtain ⟨IH1, IH2⟩ := ih
        (acc.set (key d) (if P d then acc.getD (r d) default else s d))
        hagree' hnodup' hpair'
      constructor
      · intro q hq
        simp only [List.foldl_cons]
        rw [IH1 q (fun e he => hq e (List.mem_cons_of_mem _ he))]
        exact List.get?_set_ne _ _ (hq d (List.mem_cons_self _ _))
      · intro e he
        simp only [List.foldl_cons]
        rcases List.mem_cons.mp he with rfl | he'
        · rw [IH1 (key e) (fun e' he' heq => hkd (heq ▸ List.mem_map_of_mem key he'))]
          rw [List.get?_set_eq, hval]
          rfl
        · rw [IH2 e he']
          have hne : key d ≠ key e := fun heq => hkd (heq ▸ List.mem_map_of_mem key he')
          rw [List.get?_set_ne _ _ hne]

/-- Folding over a `flatMap` is the nested fold. -/
theorem foldl_flatMap {α β γ : Type} (l : List α) (f : α → List β) (g : γ → β → γ) :
    ∀ init : γ, (l.flatMap f).foldl g init
      = l.foldl (fun acc a => (f a).foldl g acc) init := by
  induction l with
  | nil => intro init; rfl
  | cons a l ih =>
      intro init
      rw [List.flatMap_cons, List.foldl_append, List.foldl_cons, ih]

/-- A doubly nested loop is the fold over the row-major list of index pairs. -/
theorem nestedFold_eq_pairs {γ : Type} (step : γ → ℕ → ℕ → γ) (xs ys : List ℕ) :
    ∀ init : γ,
      ys.foldl (fun acc y => xs.foldl (fun acc x => step acc x y) acc) init
        = (ys.flatMap (fun y => xs.map (fun x => ((x, y) : ℕ × ℕ)))).foldl
            (fun acc d => step acc d.1 d.2) init := by
  intro init
  rw [foldl_flatMap]
  simp only [List.foldl_map]

/-- A fold over a grid that only rewrites the cell buffer, in buffer terms. -/
theorem coordsFold_cells {α ι : Type} (f : Coords α → ι → Coords α)
    (F : List α → ι → List α) (w h : ℕ)
    (hf : ∀ (cells : List α) (d : ι), f ⟨w, h, cells⟩ d = ⟨w, h, F cells d⟩) :
    ∀ (ds : List ι) (cells : List α),
      ds.foldl f ⟨w, h, cells⟩ = ⟨w, h, ds.foldl F cells⟩ := by
  intro ds
  induction ds with
  | nil => intro cells; rfl
  | cons d rest ih =>
      intro cells
      rw [List.foldl_cons, hf, List.foldl_cons, ih]

theorem pairsRow_mem (w : ℕ) (ys : List ℕ) (x y : ℕ) (hx : x < w) (hy : y ∈ ys) :
    ((x, y) : ℕ × ℕ) ∈ ys.flatMap (fun y => (List.range w).map
      (fun x => ((x, y) : ℕ × ℕ))) := by
  rw [List.mem_flatMap]
  exact ⟨y, hy, List.mem_map.mpr ⟨x, List.mem_range.mpr hx, rfl⟩⟩

theorem pairsCol_mem (h : ℕ) (xs : List ℕ) (x y : ℕ) (hx : x ∈ xs) (hy : y < h) :
    ((y, x) : ℕ × ℕ) ∈ xs.flatMap (fun x => (List.range h).map
      (fun y => ((y, x) : ℕ × ℕ))) := by
  rw [List.mem_flatMap]
  exact ⟨x, hx, List.mem_map.mpr ⟨y, List.mem_range.mpr hy, rfl⟩⟩

/-- The flat keys of a row-major pair enumeration are distinct. -/
theorem pairsRow_key_nodup (w : ℕ) (ys : List ℕ) (hys : ys.Nodup) :
    ((ys.flatMap (fun y => (List.range w).map (fun x => ((x, y) : ℕ × ℕ)))).map
      (fun d => d.2 * w + d.1)).Nodup := by
  rw [List.map_flatMap]
  simp only [List.map_map, Function.comp_def]
  rw [List.nodup_flatMap]
  constructor
  · intro y _
    refine List.Nodup.map (fun a b hab => by omega) (List.nodup_range w)
  · refine hys.imp_of_mem ?_
    intro y1 y2 _ _ hne a ha1 ha2
    obtain ⟨x1, hx1, rfl⟩ := List.mem_map.mp ha1
    obtain ⟨x2, hx2, heq⟩ := List.mem_map.mp ha2
    rw [List.mem_range] at hx1 hx2
    exact hne ((rowMajor_eq_iff hx2 hx1).mp heq).1.symm

/-- The flat keys of a column-major pair enumeration are distinct. -/
theorem pairsCol_key_nodup (w h : ℕ) (xs : List ℕ) (hxs : xs.Nodup)
    (hxw : ∀ x ∈ xs, x < w) :
    ((xs.flatMap (fun x => (List.range h).map (fun y => ((y, x) : ℕ × ℕ)))).map
      (fun d => d.1 * w + d.2)).Nodup := by
  rw [List.map_flatMap]
  simp only [List.map_map, Function.comp_def]
  rw [List.nodup_flatMap]
  constructor
  · intro x hx
    refine List.Nodup.map_on ?_ (List.nodup_range h)
    intro y1 _ y2 _ heq
    exact ((rowMajor_eq_iff (hxw x hx) (hxw x hx)).mp heq).1
  · refine hxs.imp_of_mem ?_
    intro x1 x2 hm1 hm2 hne a ha1 ha2
    obtain ⟨y1, hy1, rfl⟩ := List.mem_map.mp ha1
    obtain ⟨y2, hy2, heq⟩ := List.mem_map.mp ha2
    exact hne ((rowMajor_eq_iff (hxw x2 hm2) (hxw x1 hm1)).mp heq).2.symm


/-- Pairwise no-read-after-write condition for the row-shifting loops: the
predicate and the source row depend only on the destination row. -/
theorem pairsRow_pairwise (w : ℕ) (ys : List ℕ) (Pc : ℕ → Prop) [DecidablePred Pc]
    (Y : ℕ → ℕ)
    (hys : List.Pairwise (fun y1 y2 => Pc y2 → Y y2 ≠ y1) ys)
    (hself : ∀ y ∈ ys, Pc y → Y y ≠ y) :
    List.Pairwise (fun a b => Pc b.2 → Y b.2 * w + b.1 ≠ a.2 * w + a.1)
      (ys.flatMap (fun y => (List.range w).map (fun x => ((x, y) : ℕ × ℕ)))) := by
  rw [List.pairwise_flatMap]
  constructor
  · intro y hy
    rw [List.pairwise_map]
    refine (List.pairwise_lt_range w).imp_of_mem ?_
    intro x1 x2 h1 h2 _ hp heq
    rw [List.mem_range] at h1 h2
    exact hself y hy hp ((rowMajor_eq_iff h2 h1).mp heq).1
  · refine hys.imp_of_mem ?_
    intro y1 y2 hm1 hm2 hcond a ha1 b hb2 hp heq
    obtain ⟨x1, hx1, rfl⟩ := List.mem_map.mp ha1
    obtain ⟨x2, hx2, rfl⟩ := List.mem_map.mp hb2
    rw [List.mem_range] at hx1 hx2
    exact hcond hp ((rowMajor_eq_iff hx2 hx1).mp heq).1

/-- Pairwise no-read-after-write condition for the column-shifting loops. -/
theorem pairsCol_pairwise (w h : ℕ) (xs : List ℕ) (Pc : ℕ → Prop) [DecidablePred Pc]
    (X : ℕ → ℕ)
    (hxw : ∀ x ∈ xs, x < w) (hXw : ∀ x ∈ xs, Pc x → X x < w)
    (hxs : List.Pairwise (fun x1 x2 => Pc x2 → X x2 ≠ x1) xs) :
    List.Pairwise (fun a b => Pc b.2 → b.1 * w + X b.2 ≠ a.1 * w + a.2)
      (xs.flatMap (fun x => (List.range h).map (fun y => ((y, x) : ℕ × ℕ)))) := by
  rw [List.pairwise_flatMap]
  constructor
  · intro x hx
    rw [List.pairwise_map]
    refine (List.pairwise_lt_range h).imp_of_mem ?_
    intro y1 y2 _ _ hlt hp heq
    obtain ⟨hyeq, _⟩ := (rowMajor_eq_iff (hXw x hx hp) (hxw x hx)).mp heq
    omega
  · refine hxs.imp_of_mem ?_
    intro x1 x2 hm1 hm2 hcond a ha1 b hb2 hp heq
    obtain ⟨y1, hy1, rfl⟩ := List.mem_map.mp ha1
    obtain ⟨y2, hy2, rfl⟩ := List.mem_map.mp hb2
    exact hcond hp ((rowMajor_eq_iff (hXw x2 hm2 hp) (hxw x1 hm1)).mp heq).2

/-- `copy_slice` over an ordered rectangle: a fresh `(x2-x1) × (y2-y1)` grid
whose cell `(i, j)` is the source cell `(x1+i, y1+j)`. -/
theorem Coords.copy_slice_spec {α : Type} [Inhabited α] (g : Coords α)
    (x1 y1 x2 y2 : ℕ) (hx : x1 ≤ x2) (hy : y1 ≤ y2)
    (hxw : x2 ≤ g.width) (hyh : y2 ≤ g.height) :
    ∃ res : Coords α, g.copy_slice (x1, y1) (x2, y2) = some res ∧
      res.width = x2 - x1 ∧ res.height = y2 - y1 ∧
      res.cells.length = (x2 - x1) * (y2 - y1) ∧
      ∀ i j : ℕ, i < x2 - x1 → j < y2 - y1 →
        res.cells.get? (j * (x2 - x1) + i) = some (g.getCell (x1 + i) (y1 + j)) := by
  unfold Coords.copy_slice
  simp only [Nat.max_eq_right hx, Nat.max_eq_right hy, Nat.min_eq_left hx,
    Nat.min_eq_left hy]
  rw [if_pos ⟨hxw, hyh⟩]
  simp only [List.range'_eq_map_range, List.foldl_map, Nat.add_sub_cancel_left]
  rw [nestedFold_eq_pairs
    (fun acc x y => Coords.copy_from acc g (x1 + x) (y1 + y) x y)
    (List.range (x2 - x1)) (List.range (y2 - y1))]
  rw [show Coords.new α (x2 - x1) (y2 - y1)
      = ⟨x2 - x1, y2 - y1, List.replicate ((x2 - x1) * (y2 - y1)) default⟩ from rfl]
  rw [coordsFold_cells
    (fun acc (d : ℕ × ℕ) => Coords.copy_from acc g (x1 + d.1) (y1 + d.2) d.1 d.2)
    (fun cls (d : ℕ × ℕ) =>
      cls.set (d.2 * (x2 - x1) + d.1) (g.getCell (x1 + d.1) (y1 + d.2)))
    (x2 - x1) (y2 - y1) (fun cells d => rfl)]
  refine ⟨_, rfl, rfl, rfl, ?_, ?_⟩
  · rw [foldl_set_length (fun (d : ℕ × ℕ) => d.2 * (x2 - x1) + d.1)
      (fun cls (d : ℕ × ℕ) => g.getCell (x1 + d.1) (y1 + d.2))]
    exact List.length_replicate _ _
  · intro i j hi hj
    obtain ⟨W1, W2⟩ := foldWritePure_get
      (fun (d : ℕ × ℕ) => d.2 * (x2 - x1) + d.1)
      (fun d => g.getCell (x1 + d.1) (y1 + d.2))
      ((List.range (y2 - y1)).flatMap (fun y => (List.range (x2 - x1)).map
        (fun x => ((x, y) : ℕ × ℕ))))
      (List.replicate ((x2 - x1) * (y2 - y1)) default)
      (pairsRow_key_nodup (x2 - x1) (List.range (y2 - y1)) (List.nodup_range _))
    have hmem := pairsRow_mem (x2 - x1) (List.range (y2 - y1)) i j hi
      (List.mem_range.mpr hj)
    rw [W2 (i, j) hmem, get?_replicate_of_lt _ (rowMajor_bound hi hj)]
    rfl

/-- `copy_rows` carves out the first `row` rows (`row > 0`) or the last
`-row` rows (`row < 0`) of the grid. -/
theorem Coords.copy_rows_spec {α : Type} [Inhabited α] (g : Coords α) (row : ℤ)
    (hmag : row.natAbs ≤ g.height) :
    ∃ res : Coords α, g.copy_rows row = some res ∧
      res.width = g.width ∧ res.height = row.natAbs ∧
      res.cells.length = g.width * row.natAbs ∧
      ∀ i j : ℕ, i < g.width → j < row.natAbs →
        res.cells.get? (j * g.width + i) =
          some (g.getCell i ((if 0 < row then 0 else g.height - row.natAbs) + j)) := by
  by_cases hpos : 0 < row
  · have hidx : g.idx row (g.width : ℤ) = some (0, row.natAbs, 0, g.width) := by
      simp only [Coords.idx]
      rw [if_pos hpos]
      by_cases hw : (0 : ℤ) < (g.width : ℤ)
      · rw [if_pos hw]
        simp only [Int.toNat_zero, Int.toNat_natCast, Option.some.injEq,
          Prod.mk.injEq, true_and, and_true]
        omega
      · rw [if_neg hw, if_pos (by omega : (0 : ℤ) ≤ (g.width : ℤ) + (g.width : ℤ))]
        simp only [Int.toNat_zero, Int.toNat_natCast, Option.some.injEq,
          Prod.mk.injEq, true_and, and_true]
        omega
    unfold Coords.copy_rows
    rw [hidx]
    obtain ⟨res, hres, hw2, hh2, hlen2, hget2⟩ := Coords.copy_slice_spec g 0 0
      g.width row.natAbs (Nat.zero_le _) (Nat.zero_le _) (le_refl _) (by omega)
    simp only [Nat.sub_zero, Nat.add_zero, Nat.zero_add] at hw2 hh2 hlen2 hget2
    refine ⟨res, hres, hw2, hh2, by rw [hlen2], ?_⟩
    intro i j hi hj
    rw [hget2 i j hi hj, if_pos hpos, Nat.zero_add]
  · have hidx : g.idx row (g.width : ℤ)
        = some (g.height - row.natAbs, g.height, 0, g.width) := by
      simp only [Coords.idx]
      rw [if_neg hpos, if_pos (by omega : (0 : ℤ) ≤ (g.height : ℤ) + row)]
      by_cases hw : (0 : ℤ) < (g.width : ℤ)
      · rw [if_pos hw]
        simp only [Int.toNat_zero, Int.toNat_natCast, Option.some.injEq,
          Prod.mk.injEq, true_and, and_true]
        omega
      · rw [if_neg hw, if_pos (by omega : (0 : ℤ) ≤ (g.width : ℤ) + (g.width : ℤ))]
        simp only [Int.toNat_zero, Int.toNat_natCast, Option.some.injEq,
          Prod.mk.injEq, true_and, and_true]
        omega
    unfold Coords.copy_rows
    rw [hidx]
    obtain ⟨res, hres, hw2, hh2, hlen2, hget2⟩ := Coords.copy_slice_spec g 0
      (g.height - row.natAbs) g.width g.height (Nat.zero_le _) (by omega)
      (le_refl _) (le_refl _)
    have hsub : g.height - (g.height - row.natAbs) = row.natAbs := by omega
    simp only [Nat.sub_zero, Nat.zero_add, hsub] at hw2 hh2 hlen2 hget2
    refine ⟨res, hres, hw2, hh2, by rw [hlen2], ?_⟩
    intro i j hi hj
    rw [hget2 i j hi hj, if_neg hpos]

/-- `copy_cols` carves out the first `col` columns (`col > 0`) or the last
`-col` columns (`col < 0`) of the grid. -/
theorem Coords.copy_cols_spec {α : Type} [Inhabited α] (g : Coords α) (col : ℤ)
    (hmag : col.natAbs ≤ g.width) :
    ∃ res : Coords α, g.copy_cols col = some res ∧
      res.width = col.natAbs ∧ res.height = g.height ∧
      res.cells.length = col.natAbs * g.height ∧
      ∀ i j : ℕ, i < col.natAbs → j < g.height →
        res.cells.get? (j * col.natAbs + i) =
          some (g.getCell ((if 0 < col then 0 else g.width - col.natAbs) + i) j) := by
  have hrows : (if 0 < (g.height : ℤ) then some ((0 : ℤ), (g.height : ℤ))
      else if 0 ≤ (g.height : ℤ) + (g.height : ℤ)
        then some ((g.height : ℤ) + (g.height : ℤ), (g.height : ℤ)) else none)
      = some ((0 : ℤ), (g.height : ℤ)) ∨
      ((g.height = 0) ∧
        (if 0 < (g.height : ℤ) then some ((0 : ℤ), (g.height : ℤ))
        else if 0 ≤ (g.height : ℤ) + (g.height : ℤ)
          then some ((g.height : ℤ) + (g.height : ℤ), (g.height : ℤ)) else none)
        = some ((0 : ℤ), (g.height : ℤ))) := by
    by_cases hh : (0 : ℤ) < (g.height : ℤ)
    · rw [if_pos hh]
      exact Or.inl rfl
    · rw [if_neg hh, if_pos (by omega)]
      left
      have : (g.height : ℤ) = 0 := by omega
      rw [this]
      norm_num
  by_cases hpos : 0 < col
  · have hidx : g.idx (g.height : ℤ) col = some (0, g.height, 0, col.natAbs) := by
      simp only [Coords.idx]
      rcases hrows with hr | ⟨_, hr⟩ <;>
      · rw [hr, if_pos hpos]
        simp only [Int.toNat_zero, Int.toNat_natCast, Option.some.injEq,
          Prod.mk.injEq, true_and, and_true]
        omega
    unfold Coords.copy_cols
    rw [hidx]
    obtain ⟨res, hres, hw2, hh2, hlen2, hget2⟩ := Coords.copy_slice_spec g 0 0
      col.natAbs g.height (Nat.zero_le _) (Nat.zero_le _) (by omega) (le_refl _)
    simp only [Nat.sub_zero, Nat.add_zero, Nat.zero_add] at hw2 hh2 hlen2 hget2
    refine ⟨res, hres, hw2, hh2, by rw [hlen2], ?_⟩
    intro i j hi hj
    rw [hget2 i j hi hj, if_pos hpos, Nat.zero_add]
  · have hidx : g.idx (g.height : ℤ) col
        = some (0, g.height, g.width - col.natAbs, g.width) := by
      simp only [Coords.idx]
      rcases hrows with hr | ⟨_, hr⟩ <;>
      · rw [hr, if_neg hpos, if_pos (by omega : (0 : ℤ) ≤ (g.width : ℤ) + col)]
        simp only [Int.toNat_zero, Int.toNat_natCast, Option.some.injEq,
          Prod.mk.injEq, true_and, and_true]
        omega
    unfold Coords.copy_cols
    rw [hidx]
    obtain ⟨res, hres, hw2, hh2, hlen2, hget2⟩ := Coords.copy_slice_spec g
      (g.width - col.natAbs) 0 g.width g.height (by omega) (Nat.zero_le _)
      (le_refl _) (le_refl _)
    have hsub : g.width - (g.width - col.natAbs) = col.natAbs := by omega
    simp only [Nat.sub_zero, Nat.zero_add, hsub] at hw2 hh2 hlen2 hget2
    refine ⟨res, hres, hw2, hh2, by rw [hlen2], ?_⟩
    intro i j hi hj
    rw [hget2 i j hi hj, if_neg hpos]

/-- In-place `shift_rows` with a splice source: destination row `y` receives
source row `y - row` of the original grid when that row exists, and row
`y - row + cp_y_offset` of the splice source otherwise. -/
theorem Coords.shift_rows_spec {α : Type} [Inhabited α] (w h : ℕ) (cells : List α)
    (cp : Coords α) (row : ℤ) (hrow : row ≠ 0)
    (hch : cp.height = row.natAbs) (hcw : cp.width = w)
    (hlen : cells.length = w * h) :
    ∃ res : Coords α,
      Coords.shift_rows ⟨w, h, cells⟩ row (some cp) = some res ∧
      res.width = w ∧ res.height = h ∧ res.cells.length = cells.length ∧
      ∀ x y : ℕ, x < w → y < h →
        res.cells.get? (y * w + x) =
          some (if 0 ≤ (y : ℤ) - row ∧ (y : ℤ) - row < (h : ℤ)
                then cells.getD ((((y : ℤ) - row).toNat) * w + x) default
                else cp.cells.getD ((((y : ℤ) - row +
                  (if 0 < row then row else -(h : ℤ))).toNat) * cp.width + x) default) := by
  by_cases hpos : 0 < row
  · refine ⟨⟨w, h, ((List.range h).reverse.flatMap (fun y => (List.range w).map
        (fun x => ((x, y) : ℕ × ℕ)))).foldl
        (fun cls (d : ℕ × ℕ) => cls.set (d.2 * w + d.1)
          (if 0 ≤ (d.2 : ℤ) - row ∧ (d.2 : ℤ) - row < (h : ℤ)
           then cls.getD ((((d.2 : ℤ) - row).toNat) * w + d.1) default
           else cp.cells.getD ((((d.2 : ℤ) - row + row).toNat) * cp.width + d.1)
             default)) cells⟩, ?_, rfl, rfl, ?_, ?_⟩
    · simp only [Coords.shift_rows]
      rw [if_pos ⟨hch, hcw⟩]
      simp only [Coords.shiftRowsGo]
      rw [if_neg hrow]
      simp only [if_pos hpos]
      rw [nestedFold_eq_pairs
        (fun acc x y => if 0 ≤ (y : ℤ) - row ∧ (y : ℤ) - row < (h : ℤ)
          then Coords.copy_self acc x (((y : ℤ) - row).toNat) x y
          else Coords.copy_from acc cp x (((y : ℤ) - row + row).toNat) x y)
        (List.range w) ((List.range h).reverse)]
      rw [coordsFold_cells
        (fun acc (d : ℕ × ℕ) => if 0 ≤ (d.2 : ℤ) - row ∧ (d.2 : ℤ) - row < (h : ℤ)
          then Coords.copy_self acc d.1 (((d.2 : ℤ) - row).toNat) d.1 d.2
          else Coords.copy_from acc cp d.1 (((d.2 : ℤ) - row + row).toNat) d.1 d.2)
        (fun cls (d : ℕ × ℕ) => cls.set (d.2 * w + d.1)
          (if 0 ≤ (d.2 : ℤ) - row ∧ (d.2 : ℤ) - row < (h : ℤ)
           then cls.getD ((((d.2 : ℤ) - row).toNat) * w + d.1) default
           else cp.cells.getD ((((d.2 : ℤ) - row + row).toNat) * cp.width + d.1)
             default))
        w h
        (fun cls d => by
          dsimp only
          by_cases hc : 0 ≤ (d.2 : ℤ) - row ∧ (d.2 : ℤ) - row < (h : ℤ)
          · rw [if_pos hc, if_pos hc]
            rfl
          · rw [if_neg hc, if_neg hc]
            rfl)]
    · rw [foldl_set_length (fun (d : ℕ × ℕ) => d.2 * w + d.1)]
    · intro x y hx hy
      obtain ⟨W1, W2⟩ := foldWrite_get cells
        (fun (d : ℕ × ℕ) => d.2 * w + d.1)
        (fun (d : ℕ × ℕ) => 0 ≤ (d.2 : ℤ) - row ∧ (d.2 : ℤ) - row < (h : ℤ))
        (fun (d : ℕ × ℕ) => (((d.2 : ℤ) - row).toNat) * w + d.1)
        (fun (d : ℕ × ℕ) => cp.cells.getD ((((d.2 : ℤ) - row + row).toNat) * cp.width
          + d.1) default)
        ((List.range h).reverse.flatMap (fun y => (List.range w).map
          (fun x => ((x, y) : ℕ × ℕ))))
        cells
        (fun d _ _ => rfl)
        (pairsRow_key_nodup w ((List.range h).reverse)
          (List.nodup_reverse.mpr (List.nodup_range h)))
        (pairsRow_pairwise w ((List.range h).reverse)
          (fun y => 0 ≤ (y : ℤ) - row ∧ (y : ℤ) - row < (h : ℤ))
          (fun y => ((y : ℤ) - row).toNat)
          (by
            rw [List.pairwise_reverse]
            refine (List.pairwise_lt_range h).imp ?_
            intro a b hab hp
            show ((a : ℤ) - row).toNat ≠ b
            omega)
          (by
            intro y _ hp
            show ((y : ℤ) - row).toNat ≠ y
            omega))
      have hmem := pairsRow_mem w ((List.range h).reverse) x y hx
        (List.mem_reverse.mpr (List.mem_range.mpr hy))
      have hlt : y * w + x < cells.length := by
        rw [hlen]
        exact rowMajor_bound hx hy
      have h2 := W2 (x, y) hmem
      refine h2.trans ?_
      rw [List.get?_eq_get hlt]
      rw [if_pos hpos]
      rfl
  · have hneg : row < 0 := by omega
    refine ⟨⟨w, h, ((List.range h).flatMap (fun y => (List.range w).map
        (fun x => ((x, y) : ℕ × ℕ)))).foldl
        (fun cls (d : ℕ × ℕ) => cls.set (d.2 * w + d.1)
          (if 0 ≤ (d.2 : ℤ) - row ∧ (d.2 : ℤ) - row < (h : ℤ)
           then cls.getD ((((d.2 : ℤ) - row).toNat) * w + d.1) default
           else cp.cells.getD ((((d.2 : ℤ) - row + -(h : ℤ)).toNat) * cp.width + d.1)
             default)) cells⟩, ?_, rfl, rfl, ?_, ?_⟩
    · simp only [Coords.shift_rows]
      rw [if_pos ⟨hch, hcw⟩]
      simp only [Coords.shiftRowsGo]
      rw [if_neg hrow]
      simp only [if_neg hpos]
      rw [nestedFold_eq_pairs
        (fun acc x y => if 0 ≤ (y : ℤ) - row ∧ (y : ℤ) - row < (h : ℤ)
          then Coords.copy_self acc x (((y : ℤ) - row).toNat) x y
          else Coords.copy_from acc cp x (((y : ℤ) - row + -(h : ℤ)).toNat) x y)
        (List.range w) (List.range h)]
      rw [coordsFold_cells
        (fun acc (d : ℕ × ℕ) => if 0 ≤ (d.2 : ℤ) - row ∧ (d.2 : ℤ) - row < (h : ℤ)
          then Coords.copy_self acc d.1 (((d.2 : ℤ) - row).toNat) d.1 d.2
          else Coords.copy_from acc cp d.1 (((d.2 : ℤ) - row + -(h : ℤ)).toNat) d.1 d.2)
        (fun cls (d : ℕ × ℕ) => cls.set (d.2 * w + d.1)
          (if 0 ≤ (d.2 : ℤ) - row ∧ (d.2 : ℤ) - row < (h : ℤ)
           then cls.getD ((((d.2 : ℤ) - row).toNat) * w + d.1) default
           else cp.cells.getD ((((d.2 : ℤ) - row + -(h : ℤ)).toNat) * cp.width + d.1)
             default))
        w h
        (fun cls d => by
          dsimp only
          by_cases hc : 0 ≤ (d.2 : ℤ) - row ∧ (d.2 : ℤ) - row < (h : ℤ)
          · rw [if_pos hc, if_pos hc]
            rfl
          · rw [if_neg hc, if_neg hc]
            rfl)]
    · rw [foldl_set_length (fun (d : ℕ × ℕ) => d.2 * w + d.1)]
    · intro x y hx hy
      obtain ⟨W1, W2⟩ := foldWrite_get cells
        (fun (d : ℕ × ℕ) => d.2 * w + d.1)
        (fun (d : ℕ × ℕ) => 0 ≤ (d.2 : ℤ) - row ∧ (d.2 : ℤ) - row < (h : ℤ))
        (fun (d : ℕ × ℕ) => (((d.2 : ℤ) - row).toNat) * w + d.1)
        (fun (d : ℕ × ℕ) => cp.cells.getD ((((d.2 : ℤ) - row + -(h : ℤ)).toNat)
          * cp.width + d.1) default)
        ((List.range h).flatMap (fun y => (List.range w).map
          (fun x => ((x, y) : ℕ × ℕ))))
        cells
        (fun d _ _ => rfl)
        (pairsRow_key_nodup w (List.range h) (List.nodup_range h))
        (pairsRow_pairwise w (List.range h)
          (fun y => 0 ≤ (y : ℤ) - row ∧ (y : ℤ) - row < (h : ℤ))
          (fun y => ((y : ℤ) - row).toNat)
          (by
            refine (List.pairwise_lt_range h).imp ?_
            intro a b hab hp
            show ((b : ℤ) - row).toNat ≠ a
            omega)
          (by
            intro y _ hp
            show ((y : ℤ) - row).toNat ≠ y
            omega))
      have hmem := pairsRow_mem w (List.range h) x y hx (List.mem_range.mpr hy)
      have hlt : y * w + x < cells.length := by
        rw [hlen]
        exact rowMajor_bound hx hy
      have h2 := W2 (x, y) hmem
      refine h2.trans ?_
      rw [List.get?_eq_get hlt]
      rw [if_neg hpos]
      rfl

/-- In-place `shift_cols` with a splice source: destination column `x` receives
source column `x - col` of the original grid when that column exists, and
column `x - col + cp_x_offset` of the splice source otherwise. -/
theorem Coords.shift_cols_spec {α : Type} [Inhabited α] (w h : ℕ) (cells : List α)
    (cp : Coords α) (col : ℤ) (hcol : col ≠ 0)
    (hch : cp.height = h) (hcw : cp.width = col.natAbs)
    (hlen : cells.length = w * h) :
    ∃ res : Coords α,
      Coords.shift_cols ⟨w, h, cells⟩ col (some cp) = some res ∧
      res.width = w ∧ res.height = h ∧ res.cells.length = cells.length ∧
      ∀ x y : ℕ, x < w → y < h →
        res.cells.get? (y * w + x) =
          some (if 0 ≤ (x : ℤ) - col ∧ (x : ℤ) - col < (w : ℤ)
                then cells.getD (y * w + ((x : ℤ) - col).toNat) default
                else cp.cells.getD (y * cp.width + ((x : ℤ) - col +
                  (if 0 < col then col else -(w : ℤ))).toNat) default) := by
  by_cases hpos : 0 < col
  · refine ⟨⟨w, h, ((List.range w).reverse.flatMap (fun x => (List.range h).map
        (fun y => ((y, x) : ℕ × ℕ)))).foldl
        (fun cls (d : ℕ × ℕ) => cls.set (d.1 * w + d.2)
          (if 0 ≤ (d.2 : ℤ) - col ∧ (d.2 : ℤ) - col < (w : ℤ)
           then cls.getD (d.1 * w + ((d.2 : ℤ) - col).toNat) default
           else cp.cells.getD (d.1 * cp.width + ((d.2 : ℤ) - col + col).toNat)
             default)) cells⟩, ?_, rfl, rfl, ?_, ?_⟩
    · simp only [Coords.shift_cols]
      rw [if_pos ⟨hch, hcw⟩]
      simp only [Coords.shiftColsGo]
      rw [if_neg hcol]
      simp only [if_pos hpos]
      rw [nestedFold_eq_pairs
        (fun acc y x => if 0 ≤ (x : ℤ) - col ∧ (x : ℤ) - col < (w : ℤ)
          then Coords.copy_self acc (((x : ℤ) - col).toNat) y x y
          else Coords.copy_from acc cp (((x : ℤ) - col + col).toNat) y x y)
        (List.range h) ((List.range w).reverse)]
      rw [coordsFold_cells
        (fun acc (d : ℕ × ℕ) => if 0 ≤ (d.2 : ℤ) - col ∧ (d.2 : ℤ) - col < (w : ℤ)
          then Coords.copy_self acc (((d.2 : ℤ) - col).toNat) d.1 d.2 d.1
          else Coords.copy_from acc cp (((d.2 : ℤ) - col + col).toNat) d.1 d.2 d.1)
        (fun cls (d : ℕ × ℕ) => cls.set (d.1 * w + d.2)
          (if 0 ≤ (d.2 : ℤ) - col ∧ (d.2 : ℤ) - col < (w : ℤ)
           then cls.getD (d.1 * w + ((d.2 : ℤ) - col).toNat) default
           else cp.cells.getD (d.1 * cp.width + ((d.2 : ℤ) - col + col).toNat)
             default))
        w h
        (fun cls d => by
          dsimp only
          by_cases hc : 0 ≤ (d.2 : ℤ) - col ∧ (d.2 : ℤ) - col < (w : ℤ)
          · rw [if_pos hc, if_pos hc]
            rfl
          · rw [if_neg hc, if_neg hc]
            rfl)]
    · rw [foldl_set_length (fun (d : ℕ × ℕ) => d.1 * w + d.2)]
    · intro x y hx hy
      obtain ⟨W1, W2⟩ := foldWrite_get cells
        (fun (d : ℕ × ℕ) => d.1 * w + d.2)
        (fun (d : ℕ × ℕ) => 0 ≤ (d.2 : ℤ) - col ∧ (d.2 : ℤ) - col < (w : ℤ))
        (fun (d : ℕ × ℕ) => d.1 * w + ((d.2 : ℤ) - col).toNat)
        (fun (d : ℕ × ℕ) => cp.cells.getD (d.1 * cp.width +
          ((d.2 : ℤ) - col + col).toNat) default)
        ((List.range w).reverse.flatMap (fun x => (List.range h).map
          (fun y => ((y, x) : ℕ × ℕ))))
        cells
        (fun d _ _ => rfl)
        (pairsCol_key_nodup w h ((List.range w).reverse)
          (List.nodup_reverse.mpr (List.nodup_range w))
          (fun x hxm => List.mem_range.mp (List.mem_reverse.mp hxm)))
        (pairsCol_pairwise w h ((List.range w).reverse)
          (fun x => 0 ≤ (x : ℤ) - col ∧ (x : ℤ) - col < (w : ℤ))
          (fun x => ((x : ℤ) - col).toNat)
          (fun x hxm => List.mem_range.mp (List.mem_reverse.mp hxm))
          (by
            intro x _ hp
            show ((x : ℤ) - col).toNat < w
            omega)
          (by
            rw [List.pairwise_reverse]
            refine (List.pairwise_lt_range w).imp ?_
            intro a b hab hp
            show ((a : ℤ) - col).toNat ≠ b
            omega))
      have hmem := pairsCol_mem h ((List.range w).reverse) x y
        (List.mem_reverse.mpr (List.mem_range.mpr hx)) hy
      have hlt : y * w + x < cells.length := by
        rw [hlen]
        exact rowMajor_bound hx hy
      have h2 := W2 (y, x) hmem
      refine h2.trans ?_
      rw [List.get?_eq_get hlt]
      rw [if_pos hpos]
      rfl
  · have hneg : col < 0 := by omega
    refine ⟨⟨w, h, ((List.range w).flatMap (fun x => (List.range h).map
        (fun y => ((y, x) : ℕ × ℕ)))).foldl
        (fun cls (d : ℕ × ℕ) => cls.set (d.1 * w + d.2)
          (if 0 ≤ (d.2 : ℤ) - col ∧ (d.2 : ℤ) - col < (w : ℤ)
           then cls.getD (d.1 * w + ((d.2 : ℤ) - col).toNat) default
           else cp.cells.getD (d.1 * cp.width + ((d.2 : ℤ) - col + -(w : ℤ)).toNat)
             default)) cells⟩, ?_, rfl, rfl, ?_, ?_⟩
    · simp only [Coords.shift_cols]
      rw [if_pos ⟨hch, hcw⟩]
      simp only [Coords.shiftColsGo]
      rw [if_neg hcol]
      simp only [if_neg hpos]
      rw [nestedFold_eq_pairs
        (fun acc y x => if 0 ≤ (x : ℤ) - col ∧ (x : ℤ) - col < (w : ℤ)
          then Coords.copy_self acc (((x : ℤ) - col).toNat) y x y
          else Coords.copy_from acc cp (((x : ℤ) - col + -(w : ℤ)).toNat) y x y)
        (List.range h) (List.range w)]
      rw [coordsFold_cells
        (fun acc (d : ℕ × ℕ) => if 0 ≤ (d.2 : ℤ) - col ∧ (d.2 : ℤ) - col < (w : ℤ)
          then Coords.copy_self acc (((d.2 : ℤ) - col).toNat) d.1 d.2 d.1
          else Coords.copy_from acc cp (((d.2 : ℤ) - col + -(w : ℤ)).toNat) d.1 d.2 d.1)
        (fun cls (d : ℕ × ℕ) => cls.set (d.1 * w + d.2)
          (if 0 ≤ (d.2 : ℤ) - col ∧ (d.2 : ℤ) - col < (w : ℤ)
           then cls.getD (d.1 * w + ((d.2 : ℤ) - col).toNat) default
           else cp.cells.getD (d.1 * cp.width + ((d.2 : ℤ) - col + -(w : ℤ)).toNat)
             default))
        w h
        (fun cls d => by
          dsimp only
          by_cases hc : 0 ≤ (d.2 : ℤ) - col ∧ (d.2 : ℤ) - col < (w : ℤ)
          · rw [if_pos hc, if_pos hc]
            rfl
          · rw [if_neg hc, if_neg hc]
            rfl)]
    · rw [foldl_set_length (fun (d : ℕ × ℕ) => d.1 * w + d.2)]
    · intro x y hx hy
      obtain ⟨W1, W2⟩ := foldWrite_get cells
        (fun (d : ℕ × ℕ) => d.1 * w + d.2)
        (fun (d : ℕ × ℕ) => 0 ≤ (d.2 : ℤ) - col ∧ (d.2 : ℤ) - col < (w : ℤ))
        (fun (d : ℕ × ℕ) => d.1 * w + ((d.2 : ℤ) - col).toNat)
        (fun (d : ℕ × ℕ) => cp.cells.getD (d.1 * cp.width +
          ((d.2 : ℤ) - col + -(w : ℤ)).toNat) default)
        ((List.range w).flatMap (fun x => (List.range h).map
          (fun y => ((y, x) : ℕ × ℕ))))
        cells
        (fun d _ _ => rfl)
        (pairsCol_key_nodup w h (List.range w) (List.nodup_range w)
          (fun x hxm => List.mem_range.mp hxm))
        (pairsCol_pairwise w h (List.range w)
          (fun x => 0 ≤ (x : ℤ) - col ∧ (x : ℤ) - col < (w : ℤ))
          (fun x => ((x : ℤ) - col).toNat)
          (fun x hxm => List.mem_range.mp hxm)
          (by
            intro x _ hp
            show ((x : ℤ) - col).toNat < w
            omega)
          (by
            refine (List.pairwise_lt_range w).imp ?_
            intro a b hab hp
            show ((b : ℤ) - col).toNat ≠ a
            omega))
      have hmem := pairsCol_mem h (List.range w) x y (List.mem_range.mpr hx) hy
      have hlt : y * w + x < cells.length := by
        rw [hlen]
        exact rowMajor_bound hx hy
      have h2 := W2 (y, x) hmem
      refine h2.trans ?_
      rw [List.get?_eq_get hlt]
      rw [if_neg hpos]
      rfl

theorem flatMapRow_length {β : Type} (f : ℕ → ℕ → β) (h w : ℕ) :
    ((List.range h).flatMap (fun r => (List.range w).map (f r))).length = h * w := by
  rw [List.length_flatMap]
  simp only [Function.comp_def, List.length_map, List.length_range, List.map_const',
    List.sum_replicate, smul_eq_mul]

/-- Row-major lookup in a grid built as `flatMap` of rows. -/
theorem flatMapRow_get {β : Type} (f : ℕ → ℕ → β) (w : ℕ) :
    ∀ (h r c : ℕ), c < w → r < h →
      ((List.range h).flatMap (fun r => (List.range w).map (f r))).get? (r * w + c)
        = some (f r c) := by
  intro h
  induction h with
  | zero => intro r c _ hr; omega
  | succ h ih =>
      intro r c hc hr
      rw [List.range_succ, List.flatMap_append, List.flatMap_singleton]
      rcases Nat.lt_or_ge r h with hrh | hrh
      · rw [List.get?_append]
        · exact ih r c hc hrh
        · rw [flatMapRow_length]
          calc r * w + c < (r + 1) * w := by rw [Nat.succ_mul]; omega
            _ ≤ h * w := Nat.mul_le_mul_right w hrh
      · have hr' : r = h := by omega
        subst hr'
        rw [List.get?_append_right (by rw [flatMapRow_length]; omega)]
        rw [flatMapRow_length]
        have : r * w + c - r * w = c := by omega
        rw [this, List.get?_map, List.get?_range hc]
        rfl

theorem Viewbox.points_length (v : Viewbox) (hw : 0 < v.width) :
    v.points.length = v.height.toNat * v.width.toNat := by
  unfold Viewbox.points
  simp only [if_neg (by omega : ¬ v.width ≤ 0)]
  exact flatMapRow_length _ _ _

/-- Pixel `(c, r)` of the scan is `(fromX + c, fromY + r)`. -/
theorem Viewbox.points_get (v : Viewbox) (hw : 0 < v.width) (c r : ℕ)
    (hc : c < v.width.toNat) (hr : r < v.height.toNat) :
    v.points.get? (r * v.width.toNat + c) = some (v.fromX + c, v.fromY + r) := by
  unfold Viewbox.points
  simp only [if_neg (by omega : ¬ v.width ≤ 0)]
  exact flatMapRow_get (fun r c => (v.fromX + c, v.fromY + r)) _ _ r c hc hr

theorem Viewbox.coords_length (v : Viewbox) (hw : 0 < v.width) :
    v.generate_complex_coordinates.length = v.height.toNat * v.width.toNat := by
  unfold Viewbox.generate_complex_coordinates
  rw [List.length_map]
  exact v.points_length hw

/-- Coordinate `(c, r)` of the generated grid. -/
theorem Viewbox.coords_get (v : Viewbox) (hw : 0 < v.width) (c r : ℕ)
    (hc : c < v.width.toNat) (hr : r < v.height.toNat) :
    v.generate_complex_coordinates.get? (r * v.width.toNat + c)
      = some (v.unscaled (v.fromX + c) (v.fromY + r)) := by
  unfold Viewbox.generate_complex_coordinates
  rw [List.get?_map, v.points_get hw c r hc hr]
  rfl

/-- The per-cell action of one scalar `solve` call on a fresh cell with
coordinate `c`. -/
def solveCellFun (sol : MbVecSolver) (c : Cplx) : MbVecCell :=
  (List.range sol.iterations).foldl (fun cell k => solveCellStep sol.treshold k cell)
    { c := c, z := c, i := -1 }

theorem solve_ofGrid_cells (sol : MbVecSolver) (w h : ℕ) (cs : List Cplx) :
    (sol.solve (mbVecStateOfGrid w h cs)).state = cs.map (solveCellFun sol) := by
  rw [MbVecSolver.solve_state]
  unfold mbVecStateOfGrid
  rw [List.map_map]
  rfl

theorem getD_map_of_get? {α β : Type} [Inhabited β] (f : α → β) (l : List α)
    (n : ℕ) (a : α) (h : l.get? n = some a) :
    (l.map f).getD n default = f a := by
  rw [List.getD_eq_get?, List.get?_map, h]
  rfl

/-- Cell `(c, r)` of the coordinate buffer of a window. -/
theorem Viewbox.coordGrid_getCell (v : Viewbox) (hw : 0 < v.width) (c r : ℕ)
    (hc : c < v.width.toNat) (hr : r < v.height.toNat) :
    v.coordGrid.getCell c r = v.unscaled (v.fromX + c) (v.fromY + r) := by
  unfold Viewbox.coordGrid Coords.getCell
  dsimp only
  rw [List.getD_eq_get?, v.coords_get hw c r hc hr]
  rfl

theorem Viewbox.fromY_shift (v : Viewbox) (y : ℤ) :
    ({ v with centerY := v.centerY + y } : Viewbox).fromY = v.fromY + y := by
  unfold Viewbox.fromY
  dsimp only
  ring

theorem Viewbox.fromX_shift (v : Viewbox) (x : ℤ) :
    ({ v with centerX := v.centerX + x } : Viewbox).fromX = v.fromX + x := by
  unfold Viewbox.fromX
  dsimp only
  ring


/-- `pan_fast_vertical` on a solved window: the resulting `i_value` grid
equals solving the shifted window from scratch. -/
theorem pan_fast_vertical_equiv (sol : MbVecSolver) (v : Viewbox) (y : ℤ)
    (hw : 0 < v.width) (hh : 0 < v.height) (hy : y.natAbs < v.height.toNat) :
    ∃ st : MbVecState,
      Mandelbrot.pan_fast_vertical
          ⟨sol, v, sol.solve (Viewbox.coordGrid v).toVecState⟩ y
        = some ⟨sol, { v with centerY := v.centerY + y }, st⟩ ∧
      ∀ px py : ℕ, px < v.width.toNat → py < v.height.toNat →
        st.i_value px py
          = (sol.solve (Viewbox.coordGrid
              { v with centerY := v.centerY + y }).toVecState).i_value px py := by
  by_cases hy0 : y = 0
  · subst hy0
    have hv' : ({ v with centerY := v.centerY + 0 } : Viewbox) = v := by
      cases v
      simp
    obtain ⟨strip, hstrip, hsw, hsh, hslen, hsget⟩ :=
      Coords.copy_rows_spec
        (Viewbox.coordGrid { v with centerY := v.centerY + 0 }) 0 (by omega)
    have e1 : Mandelbrot.pan_fast_vertical
          ⟨sol, v, sol.solve (Viewbox.coordGrid v).toVecState⟩ 0
        = ((sol.solve (Viewbox.coordGrid v).toVecState).shift_rows 0
            (some (sol.solve strip.toVecState))).map
            (fun st => (⟨sol, { v with centerY := v.centerY + 0 }, st⟩ :
              Mandelbrot)) :=
      congrArg (fun o : Option (Coords Cplx) => match o with
        | some ncr => ((sol.solve (Viewbox.coordGrid v).toVecState).shift_rows 0
            (some (sol.solve ncr.toVecState))).map
            (fun st => (⟨sol, { v with centerY := v.centerY + 0 }, st⟩ :
              Mandelbrot))
        | none => none) hstrip
    have e2 : (sol.solve (Viewbox.coordGrid v).toVecState).shift_rows 0
        (some (sol.solve strip.toVecState))
        = some (sol.solve (Viewbox.coordGrid v).toVecState) := by
      show (if strip.height = (0 : ℤ).natAbs ∧
            strip.width = (sol.solve (Viewbox.coordGrid v).toVecState).width
          then some ((MbVecState.toCoords
              (sol.solve (Viewbox.coordGrid v).toVecState)).shiftRowsGo 0
            (some (MbVecState.toCoords (sol.solve strip.toVecState))))
          else none).map
          (fun g => { sol.solve (Viewbox.coordGrid v).toVecState with
            state := g.cells })
          = some (sol.solve (Viewbox.coordGrid v).toVecState)
      rw [if_pos (⟨hsh, hsw⟩ : strip.height = (0 : ℤ).natAbs ∧
        strip.width = (sol.solve (Viewbox.coordGrid v).toVecState).width)]
      rfl
    refine ⟨sol.solve (Viewbox.coordGrid v).toVecState, ?_, ?_⟩
    · rw [e1, e2]
      rfl
    · intro px py _ _
      rw [hv']
  · have hyy : (-y) ≠ 0 := by omega
    obtain ⟨strip, hstrip, hsw, hsh, hslen, hsget⟩ :=
      Coords.copy_rows_spec
        (Viewbox.coordGrid { v with centerY := v.centerY + y }) (-y)
        (by show (-y).natAbs ≤ v.height.toNat; omega)
    have hsget2 : ∀ i j : ℕ, i < v.width.toNat → j < (-y).natAbs →
        strip.cells.get? (j * v.width.toNat + i)
          = some (Viewbox.unscaled v (v.fromX + i)
              (v.fromY + y + ((if 0 < -y then 0
                else v.height.toNat - (-y).natAbs) + j : ℕ))) := by
      intro i j hi hj
      have h1 := hsget i j hi hj
      refine h1.trans ?_
      have hch : (Viewbox.coordGrid { v with centerY := v.centerY + y }).height
          = v.height.toNat := rfl
      rw [hch]
      rw [Viewbox.coordGrid_getCell { v with centerY := v.centerY + y } hw i _ hi
        (by
          show (if 0 < -y then 0 else v.height.toNat - (-y).natAbs) + j
            < v.height.toNat
          split <;> omega)]
      rw [Viewbox.fromY_shift]
      rfl
    have hold : MbVecState.toCoords (sol.solve (Viewbox.coordGrid v).toVecState)
        = ⟨v.width.toNat, v.height.toNat,
            v.generate_complex_coordinates.map (solveCellFun sol)⟩ := by
      unfold MbVecState.toCoords Coords.toVecState
      rw [solve_ofGrid_cells]
      rfl
    have hstripc : MbVecState.toCoords (sol.solve strip.toVecState)
        = ⟨strip.width, strip.height, strip.cells.map (solveCellFun sol)⟩ := by
      unfold MbVecState.toCoords Coords.toVecState
      rw [solve_ofGrid_cells]
      rfl
    obtain ⟨res, hres, hrw, hrh, hrlen, hrget⟩ :=
      Coords.shift_rows_spec v.width.toNat v.height.toNat
        (v.generate_complex_coordinates.map (solveCellFun sol))
        ⟨strip.width, strip.height, strip.cells.map (solveCellFun sol)⟩
        (-y) hyy hsh hsw
        (by rw [List.length_map, v.coords_length hw]; exact Nat.mul_comm _ _)
    dsimp only at hrget
    have hsw' : strip.width = v.width.toNat := hsw
    refine ⟨{ sol.solve (Viewbox.coordGrid v).toVecState with state := res.cells },
      ?_, ?_⟩
    · have e1 : Mandelbrot.pan_fast_vertical
            ⟨sol, v, sol.solve (Viewbox.coordGrid v).toVecState⟩ y
          = ((sol.solve (Viewbox.coordGrid v).toVecState).shift_rows (-y)
              (some (sol.solve strip.toVecState))).map
              (fun st => (⟨sol, { v with centerY := v.centerY + y }, st⟩ :
                Mandelbrot)) :=
        congrArg (fun o : Option (Coords Cplx) => match o with
          | some ncr => ((sol.solve (Viewbox.coordGrid v).toVecState).shift_rows
              (-y) (some (sol.solve ncr.toVecState))).map
              (fun st => (⟨sol, { v with centerY := v.centerY + y }, st⟩ :
                Mandelbrot))
          | none => none) hstrip
      have e2 : (sol.solve (Viewbox.coordGrid v).toVecState).shift_rows (-y)
          (some (sol.solve strip.toVecState))
          = some { sol.solve (Viewbox.coordGrid v).toVecState with
              state := res.cells } := by
        show (Coords.shift_rows
            (MbVecState.toCoords (sol.solve (Viewbox.coordGrid v).toVecState))
            (-y) (some (MbVecState.toCoords (sol.solve strip.toVecState)))).map
            (fun (g : Coords MbVecCell) => MbVecState.mk
              (sol.solve (Viewbox.coordGrid v).toVecState).width
              (sol.solve (Viewbox.coordGrid v).toVecState).height
              (sol.solve (Viewbox.coordGrid v).toVecState).iteration
              g.cells)
            = some (MbVecState.mk
              (sol.solve (Viewbox.coordGrid v).toVecState).width
              (sol.solve (Viewbox.coordGrid v).toVecState).height
              (sol.solve (Viewbox.coordGrid v).toVecState).iteration
              res.cells)
        rw [hold, hstripc, hres]
        rfl
      rw [e1, e2]
      rfl
    · intro px py hpx hpy
      have hlhs : ({ sol.solve (Viewbox.coordGrid v).toVecState with
            state := res.cells } : MbVecState).i_value px py
          = (res.cells.get? (py * v.width.toNat + px)).map MbVecCell.i := rfl
      rw [hlhs, hrget px py hpx hpy]
      have hrhs : (sol.solve (Viewbox.coordGrid
            { v with centerY := v.centerY + y }).toVecState).i_value px py
          = some ((solveCellFun sol (Viewbox.unscaled v (v.fromX + px)
              (v.fromY + y + py))).i) := by
        show ((sol.solve (Viewbox.coordGrid
            { v with centerY := v.centerY + y }).toVecState).state.get?
            (py * ({ v with centerY := v.centerY + y } : Viewbox).width.toNat
              + px)).map MbVecCell.i = _
        rw [show (sol.solve (Viewbox.coordGrid
              { v with centerY := v.centerY + y }).toVecState).state
            = ({ v with centerY := v.centerY + y } :
                Viewbox).generate_complex_coordinates.map (solveCellFun sol) from by
          unfold Coords.toVecState
          rw [solve_ofGrid_cells]
          rfl]
        rw [List.get?_map]
        rw [Viewbox.coords_get { v with centerY := v.centerY + y } hw px py hpx hpy]
        rw [Viewbox.fromY_shift]
        rfl
      rw [hrhs]
      refine congrArg some (congrArg MbVecCell.i ?_)
      by_cases hcond : (0 ≤ (py : ℤ) - -y ∧ (py : ℤ) - -y < ((v.height.toNat : ℕ) : ℤ))
      · rw [if_pos hcond]
        rw [getD_map_of_get? (solveCellFun sol) _ _ _
          (v.coords_get hw px (((py : ℤ) - -y).toNat) hpx (by omega))]
        refine congrArg (fun t : ℤ =>
          solveCellFun sol (v.unscaled (v.fromX + px) t)) ?_
        omega
      · rw [if_neg hcond]
        rw [hsw']
        by_cases hsgn : (0 : ℤ) < -y
        · rw [if_pos hsgn]
          have hJ : (((py : ℤ) - -y + -y).toNat) = py := by omega
          rw [hJ]
          rw [getD_map_of_get? (solveCellFun sol) _ _ _
            (hsget2 px py hpx (by omega))]
          refine congrArg (fun t : ℤ =>
            solveCellFun sol (v.unscaled (v.fromX + px) t)) ?_
          rw [if_pos hsgn]
          omega
        · rw [if_neg hsgn]
          rw [getD_map_of_get? (solveCellFun sol) _ _ _
            (hsget2 px (((py : ℤ) - -y + -((v.height.toNat : ℕ) : ℤ)).toNat) hpx
              (by omega))]
          refine congrArg (fun t : ℤ =>
            solveCellFun sol (v.unscaled (v.fromX + px) t)) ?_
          rw [if_neg hsgn]
          omega

/-- `pan_fast_horizontal` on a solved window: the resulting `i_value` grid
equals solving the shifted window from scratch. -/
theorem pan_fast_horizontal_equiv (sol : MbVecSolver) (v : Viewbox) (x : ℤ)
    (hw : 0 < v.width) (hh : 0 < v.height) (hx : x.natAbs < v.width.toNat) :
    ∃ st : MbVecState,
      Mandelbrot.pan_fast_horizontal
          ⟨sol, v, sol.solve (Viewbox.coordGrid v).toVecState⟩ x
        = some ⟨sol, { v with centerX := v.centerX + x }, st⟩ ∧
      ∀ px py : ℕ, px < v.width.toNat → py < v.height.toNat →
        st.i_value px py
          = (sol.solve (Viewbox.coordGrid
              { v with centerX := v.centerX + x }).toVecState).i_value px py := by
  by_cases hx0 : x = 0
  · subst hx0
    have hv' : ({ v with centerX := v.centerX + 0 } : Viewbox) = v := by
      cases v
      simp
    obtain ⟨strip, hstrip, hsw, hsh, hslen, hsget⟩ :=
      Coords.copy_cols_spec
        (Viewbox.coordGrid { v with centerX := v.centerX + 0 }) 0 (by omega)
    have e1 : Mandelbrot.pan_fast_horizontal
          ⟨sol, v, sol.solve (Viewbox.coordGrid v).toVecState⟩ 0
        = ((sol.solve (Viewbox.coordGrid v).toVecState).shift_cols 0
            (some (sol.solve strip.toVecState))).map
            (fun st => (⟨sol, { v with centerX := v.centerX + 0 }, st⟩ :
              Mandelbrot)) :=
      congrArg (fun o : Option (Coords Cplx) => match o with
        | some ncc => ((sol.solve (Viewbox.coordGrid v).toVecState).shift_cols 0
            (some (sol.solve ncc.toVecState))).map
            (fun st => (⟨sol, { v with centerX := v.centerX + 0 }, st⟩ :
              Mandelbrot))
        | none => none) hstrip
    have e2 : (sol.solve (Viewbox.coordGrid v).toVecState).shift_cols 0
        (some (sol.solve strip.toVecState))
        = some (sol.solve (Viewbox.coordGrid v).toVecState) := by
      show (if strip.height = (sol.solve (Viewbox.coordGrid v).toVecState).height ∧
            strip.width = (0 : ℤ).natAbs
          then some ((MbVecState.toCoords
              (sol.solve (Viewbox.coordGrid v).toVecState)).shiftColsGo 0
            (some (MbVecState.toCoords (sol.solve strip.toVecState))))
          else none).map
          (fun (g : Coords MbVecCell) => MbVecState.mk
            (sol.solve (Viewbox.coordGrid v).toVecState).width
            (sol.solve (Viewbox.coordGrid v).toVecState).height
            (sol.solve (Viewbox.coordGrid v).toVecState).iteration
            g.cells)
          = some (sol.solve (Viewbox.coordGrid v).toVecState)
      rw [if_pos (⟨hsh, hsw⟩ :
        strip.height = (sol.solve (Viewbox.coordGrid v).toVecState).height ∧
        strip.width = (0 : ℤ).natAbs)]
      rfl
    refine ⟨sol.solve (Viewbox.coordGrid v).toVecState, ?_, ?_⟩
    · rw [e1, e2]
      rfl
    · intro px py _ _
      rw [hv']
  · have hxx : (-x) ≠ 0 := by omega
    obtain ⟨strip, hstrip, hsw, hsh, hslen, hsget⟩ :=
      Coords.copy_cols_spec
        (Viewbox.coordGrid { v with centerX := v.centerX + x }) (-x)
        (by show (-x).natAbs ≤ v.width.toNat; omega)
    have hsget2 : ∀ i j : ℕ, i < (-x).natAbs → j < v.height.toNat →
        strip.cells.get? (j * (-x).natAbs + i)
          = some (Viewbox.unscaled v
              (v.fromX + x + ((if 0 < -x then 0
                else v.width.toNat - (-x).natAbs) + i : ℕ))
              (v.fromY + j)) := by
      intro i j hi hj
      have h1 := hsget i j hi hj
      refine h1.trans ?_
      have hcw2 : (Viewbox.coordGrid { v with centerX := v.centerX + x }).width
          = v.width.toNat := rfl
      rw [hcw2]
      rw [Viewbox.coordGrid_getCell { v with centerX := v.centerX + x } hw _ j
        (by
          show (if 0 < -x then 0 else v.width.toNat - (-x).natAbs) + i
            < v.width.toNat
          split <;> omega)
        hj]
      rw [Viewbox.fromX_shift]
      rfl
    have hold : MbVecState.toCoords (sol.solve (Viewbox.coordGrid v).toVecState)
        = ⟨v.width.toNat, v.height.toNat,
            v.generate_complex_coordinates.map (solveCellFun sol)⟩ := by
      unfold MbVecState.toCoords Coords.toVecState
      rw [solve_ofGrid_cells]
      rfl
    have hstripc : MbVecState.toCoords (sol.solve strip.toVecState)
        = ⟨strip.width, strip.height, strip.cells.map (solveCellFun sol)⟩ := by
      unfold MbVecState.toCoords Coords.toVecState
      rw [solve_ofGrid_cells]
      rfl
    obtain ⟨res, hres, hrw, hrh, hrlen, hrget⟩ :=
      Coords.shift_cols_spec v.width.toNat v.height.toNat
        (v.generate_complex_coordinates.map (solveCellFun sol))
        ⟨strip.width, strip.height, strip.cells.map (solveCellFun sol)⟩
        (-x) hxx hsh hsw
        (by rw [List.length_map, v.coords_length hw]; exact Nat.mul_comm _ _)
    dsimp only at hrget
    have hsw' : strip.width = (-x).natAbs := hsw
    refine ⟨{ sol.solve (Viewbox.coordGrid v).toVecState with state := res.cells },
      ?_, ?_⟩
    · have e1 : Mandelbrot.pan_fast_horizontal
            ⟨sol, v, sol.solve (Viewbox.coordGrid v).toVecState⟩ x
          = ((sol.solve (Viewbox.coordGrid v).toVecState).shift_cols (-x)
              (some (sol.solve strip.toVecState))).map
              (fun st => (⟨sol, { v with centerX := v.centerX + x }, st⟩ :
                Mandelbrot)) :=
        congrArg (fun o : Option (Coords Cplx) => match o with
          | some ncc => ((sol.solve (Viewbox.coordGrid v).toVecState).shift_cols
              (-x) (some (sol.solve ncc.toVecState))).map
              (fun st => (⟨sol, { v with centerX := v.centerX + x }, st⟩ :
                Mandelbrot))
          | none => none) hstrip
      have e2 : (sol.solve (Viewbox.coordGrid v).toVecState).shift_cols (-x)
          (some (sol.solve strip.toVecState))
          = some { sol.solve (Viewbox.coordGrid v).toVecState with
              state := res.cells } := by
        show (Coords.shift_cols
            (MbVecState.toCoords (sol.solve (Viewbox.coordGrid v).toVecState))
            (-x) (some (MbVecState.toCoords (sol.solve strip.toVecState)))).map
            (fun (g : Coords MbVecCell) => MbVecState.mk
              (sol.solve (Viewbox.coordGrid v).toVecState).width
              (sol.solve (Viewbox.coordGrid v).toVecState).height
              (sol.solve (Viewbox.coordGrid v).toVecState).iteration
              g.cells)
            = some (MbVecState.mk
              (sol.solve (Viewbox.coordGrid v).toVecState).width
              (sol.solve (Viewbox.coordGrid v).toVecState).height
              (sol.solve (Viewbox.coordGrid v).toVecState).iteration
              res.cells)
        rw [hold, hstripc, hres]
        rfl
      rw [e1, e2]
      rfl
    · intro px py hpx hpy
      have hlhs : ({ sol.solve (Viewbox.coordGrid v).toVecState with
            state := res.cells } : MbVecState).i_value px py
          = (res.cells.get? (py * v.width.toNat + px)).map MbVecCell.i := rfl
      rw [hlhs, hrget px py hpx hpy]
      have hrhs : (sol.solve (Viewbox.coordGrid
            { v with centerX := v.centerX + x }).toVecState).i_value px py
          = some ((solveCellFun sol (Viewbox.unscaled v (v.fromX + x + px)
              (v.fromY + py))).i) := by
        show ((sol.solve (Viewbox.coordGrid
            { v with centerX := v.centerX + x }).toVecState).state.get?
            (py * ({ v with centerX := v.centerX + x } : Viewbox).width.toNat
              + px)).map MbVecCell.i = _
        rw [show (sol.solve (Viewbox.coordGrid
              { v with centerX := v.centerX + x }).toVecState).state
            = ({ v with centerX := v.centerX + x } :
                Viewbox).generate_complex_coordinates.map (solveCellFun sol) from by
          unfold Coords.toVecState
          rw [solve_ofGrid_cells]
          rfl]
        rw [List.get?_map]
        rw [Viewbox.coords_get { v with centerX := v.centerX + x } hw px py hpx hpy]
        rw [Viewbox.fromX_shift]
        rfl
      rw [hrhs]
      refine congrArg some (congrArg MbVecCell.i ?_)
      by_cases hcond : (0 ≤ (px : ℤ) - -x ∧ (px : ℤ) - -x < ((v.width.toNat : ℕ) : ℤ))
      · rw [if_pos hcond]
        rw [getD_map_of_get? (solveCellFun sol) _ _ _
          (v.coords_get hw (((px : ℤ) - -x).toNat) py (by omega) hpy)]
        refine congrArg (fun t : ℤ =>
          solveCellFun sol (v.unscaled t (v.fromY + py))) ?_
        omega
      · rw [if_neg hcond]
        rw [hsw']
        by_cases hsgn : (0 : ℤ) < -x
        · rw [if_pos hsgn]
          have hJ : (((px : ℤ) - -x + -x).toNat) = px := by omega
          rw [hJ]
          rw [getD_map_of_get? (solveCellFun sol) _ _ _
            (hsget2 px py (by omega) hpy)]
          refine congrArg (fun t : ℤ =>
            solveCellFun sol (v.unscaled t (v.fromY + py))) ?_
          rw [if_pos hsgn]
          omega
        · rw [if_neg hsgn]
          rw [getD_map_of_get? (solveCellFun sol) _ _ _
            (hsget2 (((px : ℤ) - -x + -((v.width.toNat : ℕ) : ℤ)).toNat) py
              (by omega) hpy)]
          refine congrArg (fun t : ℤ =>
            solveCellFun sol (v.unscaled t (v.fromY + py))) ?_
          rw [if_neg hsgn]
          omega

/-- C6: for every scalar solver, every window with positive pixel dimensions,
and every translation by `y` whole rows (`|y|` < height) or `x` whole columns
(`|x|` < width), the incremental pan operations (`pan_fast_vertical` /
`pan_fast_horizontal`: solve only the newly exposed strip, shift the existing
interior in place, splice the strip in), applied to the window's solved state,
produce an `i_value` grid identical, for every cell, to fully recomputing the
translated window from scratch with the same solver. -/
theorem C6_pan_fast_equiv (sol : MbVecSolver) (v : Viewbox) (y x : ℤ)
    (hw : 0 < v.width) (hh : 0 < v.height)
    (hy : y.natAbs < v.height.toNat) (hx : x.natAbs < v.width.toNat) :
    (∃ st : MbVecState,
      Mandelbrot.pan_fast_vertical
          ⟨sol, v, sol.solve (Viewbox.coordGrid v).toVecState⟩ y
        = some ⟨sol, { v with centerY := v.centerY + y }, st⟩ ∧
      ∀ px py : ℕ, px < v.width.toNat → py < v.height.toNat →
        st.i_value px py
          = (sol.solve (Viewbox.coordGrid
              { v with centerY := v.centerY + y }).toVecState).i_value px py) ∧
    (∃ st : MbVecState,
      Mandelbrot.pan_fast_horizontal
          ⟨sol, v, sol.solve (Viewbox.coordGrid v).toVecState⟩ x
        = some ⟨sol, { v with centerX := v.centerX + x }, st⟩ ∧
      ∀ px py : ℕ, px < v.width.toNat → py < v.height.toNat →
        st.i_value px py
          = (sol.solve (Viewbox.coordGrid
              { v with centerX := v.centerX + x }).toVecState).i_value px py) :=
  ⟨pan_fast_vertical_equiv sol v y hw hh hy,
    pan_fast_horizontal_equiv sol v x hw hh hx⟩

/-- C6 witness: a 2×2 window at scale 1 with a 1-iteration solver, panned one
row down and one column right. -/
theorem C6_pan_fast_equiv_witness :
    ((0 : ℤ) < (2 : ℤ) ∧ (1 : ℤ).natAbs < (2 : ℤ).toNat) ∧
    ((∃ st : MbVecState,
        Mandelbrot.pan_fast_vertical
            ⟨⟨1, 2⟩, ⟨0, 0, 2, 2, 1⟩, MbVecSolver.solve ⟨1, 2⟩
              (Viewbox.coordGrid ⟨0, 0, 2, 2, 1⟩).toVecState⟩ 1
          = some ⟨⟨1, 2⟩, ⟨0, 1, 2, 2, 1⟩, st⟩ ∧
        ∀ px py : ℕ, px < 2 → py < 2 →
          st.i_value px py
            = (MbVecSolver.solve ⟨1, 2⟩
                (Viewbox.coordGrid ⟨0, 1, 2, 2, 1⟩).toVecState).i_value px py) ∧
      (∃ st : MbVecState,
        Mandelbrot.pan_fast_horizontal
            ⟨⟨1, 2⟩, ⟨0, 0, 2, 2, 1⟩, MbVecSolver.solve ⟨1, 2⟩
              (Viewbox.coordGrid ⟨0, 0, 2, 2, 1⟩).toVecState⟩ 1
          = some ⟨⟨1, 2⟩, ⟨1, 0, 2, 2, 1⟩, st⟩ ∧
        ∀ px py : ℕ, px < 2 → py < 2 →
          st.i_value px py
            = (MbVecSolver.solve ⟨1, 2⟩
                (Viewbox.coordGrid ⟨1, 0, 2, 2, 1⟩).toVecState).i_value px py)) :=
  ⟨⟨by decide, by decide⟩,
    C6_pan_fast_equiv ⟨1, 2⟩ ⟨0, 0, 2, 2, 1⟩ 1 1 (by decide) (by decide)
      (by decide) (by decide)⟩
